import Mathlib

/-
  mp3-metafix: a shallow embedding of `main.go` and a verification of its
  metadata-resolution and tag-application pipeline.

  Conventions of the embedding
  * Go strings are Lean `String`s (sequences of Unicode code points; byte
    sequences that are not valid UTF-8 are outside the model).
  * Go `int` is Lean `Int`; the only arithmetic in the program is the `i + 1`
    of a slice index, which cannot overflow.
  * Everything the program does to the outside world (standard output and
    input, the catalog, HTTP, the tag container, the file system) is recorded
    as a trace of `Event`s; the answers of the outside world come from an
    `Env` of oracles, indexed by the number of calls made so far, so that the
    same request may be answered differently at different times.
  * A Go panic is the outcome `panic`; the two prompt loops of `DoOne` carry a
    fuel argument, and running out of it is the outcome `outOfFuel`.
  * The standard library (`strings`, `strconv`, `path/filepath`, `time`) is
    modelled for a Unix system from its documented behaviour.
  * `main` (flag parsing, the credentials of the catalog, the choice between
    `DoDirectory` and `DoOne`) is outside the model.
-/

namespace MetaFix

/-! ## Standard library: `unicode`, `strings` -/

namespace unicode

/-- Go `unicode.IsSpace`: the code points with the Unicode White_Space property. -/
def IsSpace (c : Char) : Bool :=
  let n := c.toNat
  (9 ≤ n && n ≤ 13) || n == 0x20 || n == 0x85 || n == 0xA0 || n == 0x1680 ||
  (0x2000 ≤ n && n ≤ 0x200A) || n == 0x2028 || n == 0x2029 || n == 0x202F ||
  n == 0x205F || n == 0x3000

end unicode

namespace strings

/-- Characters of a string with the leading white space removed. -/
def trimLeft (s : List Char) : List Char := s.dropWhile unicode.IsSpace

/-- Characters of a string with the trailing white space removed. -/
def trimRight (s : List Char) : List Char := (trimLeft s.reverse).reverse

/-- Go `strings.TrimSpace`: all leading and trailing white space removed. -/
def TrimSpace (s : String) : String := ⟨trimRight (trimLeft s.data)⟩

/-- Pieces of `s` between occurrences of `sep`; `acc` holds, reversed, the
piece being read. -/
def splitAux (sep : Char) : List Char → List Char → List (List Char)
  | acc, [] => [acc.reverse]
  | acc, c :: cs =>
    if c = sep then acc.reverse :: splitAux sep [] cs else splitAux sep (c :: acc) cs

/-- Pieces of a character list between occurrences of `sep`. -/
def splitChars (sep : Char) (s : List Char) : List (List Char) := splitAux sep [] s

/-- Go `strings.Split(s, sep)` for a one-character separator (the program only
calls it with `","`): the substrings between separators, one more than there
are separators. -/
def Split (s : String) (sep : Char) : List String := (splitChars sep s.data).map String.mk

/-- Characters of the elements joined with `sep` between them. -/
def joinChars (sep : List Char) : List (List Char) → List Char
  | [] => []
  | [a] => a
  | a :: b :: rest => a ++ sep ++ joinChars sep (b :: rest)

/-- Go `strings.Join(elems, sep)`. -/
def Join (elems : List String) (sep : String) : String :=
  ⟨joinChars sep.data (elems.map String.data)⟩

/-- ASCII lower-casing of one character. -/
def lowerChar (c : Char) : Char :=
  if 65 ≤ c.toNat ∧ c.toNat ≤ 90 then Char.ofNat (c.toNat + 32) else c

/-- Go `strings.ToLower`, on ASCII letters; other characters are kept (the
program only compares the result with `".mp3"`). -/
def ToLower (s : String) : String := ⟨s.data.map lowerChar⟩

end strings

/-! ## Standard library: `strconv` -/

namespace strconv

/-- Error kinds of `strconv`: `ErrSyntax` and `ErrRange`. -/
inductive NumError where
  | ErrSyntax
  | ErrRange
deriving DecidableEq, Repr

/-- Value of a decimal digit. -/
def digitVal (c : Char) : Option Nat :=
  if 48 ≤ c.toNat ∧ c.toNat ≤ 57 then some (c.toNat - 48) else none

/-- Value of a string of decimal digits, continuing from `n`. -/
def parseDigits : List Char → Nat → Option Nat
  | [], n => some n
  | c :: cs, n =>
    match digitVal c with
    | none => none
    | some d => parseDigits cs (n * 10 + d)

/-- Unsigned part and sign of the argument of `Atoi`. -/
def splitSign : List Char → Bool × List Char
  | '-' :: r => (true, r)
  | '+' :: r => (false, r)
  | r => (false, r)

/-- Go `strconv.Atoi` on a 64-bit platform: an optional sign and one or more
decimal digits. A syntax error gives 0, a value out of range gives the nearest
end of the `int` range, each with an error. -/
def Atoi (s : String) : Int × Option NumError :=
  let (neg, body) := splitSign s.data
  if body = [] then (0, some .ErrSyntax)
  else
    match parseDigits body 0 with
    | none => (0, some .ErrSyntax)
    | some n =>
      if neg then
        if n > 2 ^ 63 then (-(2 ^ 63 : Int), some .ErrRange) else (-(n : Int), none)
      else
        if n ≥ 2 ^ 63 then ((2 ^ 63 : Int) - 1, some .ErrRange) else ((n : Int), none)

/-- Go `strconv.Itoa`, also what `fmt.Sprintf("%d", n)` prints. -/
def Itoa (n : Int) : String :=
  if n < 0 then "-" ++ toString n.natAbs else toString n.natAbs

end strconv

/-! ## Standard library: `path/filepath` (Unix) -/

namespace filepath

/-- Stack of path elements kept by `Clean`, innermost first, after reading the
element `c`: empty and `.` elements are dropped, `..` removes the element
before it, or is kept at the start of a path that is not rooted, or is dropped
at the start of a rooted one. -/
def cleanStep (rooted : Bool) (stack : List (List Char)) (c : List Char) : List (List Char) :=
  if c = [] ∨ c = ['.'] then stack
  else if c = ['.', '.'] then
    match stack with
    | [] => if rooted then [] else [c]
    | top :: below => if top = ['.', '.'] then c :: top :: below else below
  else c :: stack

/-- Characters of `Clean(path)` for a non-empty path. -/
def cleanChars (path : List Char) : List Char :=
  let rooted := path.head? = some '/'
  let stack := (strings.splitChars '/' path).foldl (cleanStep rooted) []
  let body := strings.joinChars ['/'] stack.reverse
  if rooted then '/' :: body else if body = [] then ['.'] else body

/-- Go `filepath.Clean`: the shortest path name equivalent to `path` by purely
lexical processing: multiple separators become one, `.` elements are removed,
an inner `..` is removed with the element before it, `/..` at the start becomes
`/`; the empty result is `.`. -/
def Clean (path : String) : String :=
  if path = "" then "." else ⟨cleanChars path.data⟩

/-- Go `filepath.Join`: the elements from the first non-empty one on, joined
with the separator and cleaned; the empty string when all are empty. -/
def Join : List String → String
  | [] => ""
  | e :: rest => if e = "" then Join rest else Clean (strings.Join (e :: rest) "/")

/-- Characters of a path up to and including its last separator. -/
def dirPart (path : List Char) : List Char :=
  (path.reverse.dropWhile (fun c => c ≠ '/')).reverse

/-- Characters of a path after its last separator. -/
def lastElem (path : List Char) : List Char :=
  (path.reverse.takeWhile (fun c => c ≠ '/')).reverse

/-- Go `filepath.Dir`: all but the last element of the path, cleaned. -/
def Dir (path : String) : String := Clean ⟨dirPart path.data⟩

/-- Scan of `Ext` from the end of the path: `rev` is the unread part,
reversed, and `acc` the part already read. -/
def extAux : List Char → List Char → List Char
  | [], _ => []
  | c :: rev, acc =>
    if c = '/' then [] else if c = '.' then c :: acc else extAux rev (c :: acc)

/-- Go `filepath.Ext`: the suffix beginning at the final dot in the final
element of the path; empty if there is no dot. -/
def Ext (path : String) : String := ⟨extAux path.data.reverse []⟩

/-- Go `filepath.Base`: the last element of the path, trailing separators
removed first; `.` for the empty path and `/` for a path of separators only. -/
def Base (path : String) : String :=
  if path = "" then "."
  else
    let stripped := (path.data.reverse.dropWhile (fun c => c = '/')).reverse
    let last := lastElem stripped
    if last = [] then "/" else ⟨last⟩

end filepath

/-! ## Standard library: `time`, layout `2006-01-02` -/

namespace time

/-- Calendar date of a `time.Time` (the program never uses the time of day). -/
structure Time where
  year : Nat
  month : Nat
  day : Nat
deriving DecidableEq, Repr

/-- The zero `time.Time`, January 1, year 1. -/
def zero : Time := ⟨1, 1, 1⟩

/-- Leap years of the Gregorian calendar. -/
def isLeap (y : Nat) : Bool := y % 4 == 0 && (y % 100 != 0 || y % 400 == 0)

/-- Number of days of a month. -/
def daysIn (m y : Nat) : Nat :=
  if m = 2 then (if isLeap y then 29 else 28)
  else if m = 4 ∨ m = 6 ∨ m = 9 ∨ m = 11 then 30 else 31

/-- Go `time.Parse("2006-01-02", s)`: four digits, two digits and two digits
separated by `-`, naming a day that exists; the zero time and an error
otherwise. -/
def Parse (s : String) : Time × Bool :=
  match s.data with
  | [y1, y2, y3, y4, '-', m1, m2, '-', d1, d2] =>
    match strconv.parseDigits [y1, y2, y3, y4] 0, strconv.parseDigits [m1, m2] 0,
        strconv.parseDigits [d1, d2] 0 with
    | some y, some m, some d =>
      if 1 ≤ m ∧ m ≤ 12 ∧ 1 ≤ d ∧ d ≤ daysIn m y then (⟨y, m, d⟩, false) else (zero, true)
    | _, _, _ => (zero, true)
  | _ => (zero, true)

/-- Decimal digits of `n`, padded with zeros to at least `width` characters. -/
def pad (width n : Nat) : String :=
  let s := toString n
  ⟨List.replicate (width - s.length) '0' ++ s.data⟩

/-- Go `t.Format("2006-01-02")`. -/
def Format (t : Time) : String := pad 4 t.year ++ "-" ++ pad 2 t.month ++ "-" ++ pad 2 t.day

end time

/-! ## `CommaString` and `TermFromFilename` -/

/-- `CommaString` of `main.go`: the empty list for a blank string, otherwise
the pieces between commas, each trimmed. -/
def CommaString (a : String) : List String :=
  if strings.TrimSpace a = "" then []
  else (strings.Split a ',').map strings.TrimSpace

/-- `TermFromFilename` of `main.go`: the base name of the path without its
extension. -/
def TermFromFilename (a : String) : String :=
  let a := filepath.Base a
  let ext := filepath.Ext a
  ⟨a.data.take (a.data.length - ext.data.length)⟩

/-! ## The tag container library (`github.com/bogem/id3v2`)

The library is not among the sources. A tag is modelled as the list of its
frames, each under its frame ID, and the calls the program makes on a tag as
the specification describes the tag container: all frames can be deleted, and
setting a frame is an upsert that leaves the frames under other frame IDs as
they are. -/

namespace id3v2

/-- Text encodings of ID3v2 frames. -/
inductive Encoding where
  | ISO
  | UTF16
  | UTF16BE
  | UTF8
deriving DecidableEq, Repr

/-- Library type `id3v2.TextFrame`. -/
structure TextFrame where
  Encoding : Encoding
  Text : String
deriving DecidableEq, Repr

/-- Library type `id3v2.PictureFrame`; the picture is a list of bytes. -/
structure PictureFrame where
  Encoding : Encoding
  MimeType : String
  PictureType : Nat
  Description : String
  Picture : List Nat
deriving DecidableEq, Repr

/-- Library type `id3v2.CommentFrame`. -/
structure CommentFrame where
  Encoding : Encoding
  Language : String
  Description : String
  Text : String
deriving DecidableEq, Repr

/-- Picture type of a front cover, `id3v2.PTFrontCover`. -/
def PTFrontCover : Nat := 3

/-- A frame of a tag: one of the three kinds the program writes, or a frame of
any other kind, kept as its body. -/
inductive Frame where
  | text (f : TextFrame)
  | picture (f : PictureFrame)
  | comment (f : CommentFrame)
  | unknown (body : List Nat)
deriving DecidableEq, Repr

/-- What distinguishes the frames of one sequence (`Framer.UniqueIdentifier`). -/
inductive UID where
  | text
  | picture (pictureType : Nat) (description : String)
  | comment (language : String) (description : String)
  | unknown (body : List Nat)
deriving DecidableEq, Repr

/-- Unique identifier of a frame within its sequence. -/
def Frame.UniqueIdentifier : Frame → UID
  | .text _ => .text
  | .picture f => .picture f.PictureType f.Description
  | .comment f => .comment f.Language f.Description
  | .unknown body => .unknown body

/-- A tag container in memory: its version and its frames, each under its
frame ID. -/
structure Tag where
  version : Nat
  frames : List (String × Frame)
deriving DecidableEq, Repr

/-- Modelled from the spec: the tables of the library, which is not among the
sources, are parameters: the frame ID of a description for a tag version
(`CommonID`), which frame IDs hold a sequence of frames rather than a single
one, and the default text encoding of a version. -/
structure Lib where
  CommonID : Nat → String → String
  mustFrameBeInSequence : String → Bool
  DefaultEncoding : Nat → Encoding

/-- One instance of the parameter `CommonID`: the frame IDs of ID3v2.4 for the
descriptions the program uses. -/
def v24CommonID (description : String) : String :=
  if description = "Attached picture" then "APIC"
  else if description = "Comments" then "COMM"
  else if description = "Title" then "TIT2"
  else if description = "Album/Movie/Show title" then "TALB"
  else if description = "Artist" then "TPE1"
  else if description = "Genre" then "TCON"
  else if description = "Year" then "TDRC"
  else if description = "Track number/Position in set" then "TRCK"
  else if description = "Part of a set" then "TPOS"
  else if description = "Date" then "TDRC"
  else if description = "Length" then "TLEN"
  else if description = "Publisher" then "TPUB"
  else if description = "Copyright message" then "TCOP"
  else description

/-- One instance of the parameter `mustFrameBeInSequence`: every frame ID but
those of the text frames (`TXXX` apart) holds a sequence. -/
def v24InSequence (id : String) : Bool :=
  id = "TXXX" || id.data.head? != some 'T'

/-- One instance of the library tables, for version 2.4 tags. -/
def v24 : Lib :=
  ⟨fun _ d => v24CommonID d, v24InSequence, fun _ => .UTF8⟩

/-- Modelled from the spec: the upsert of the library, which is not among the
sources, for a frame ID that holds a sequence: the new frame replaces the
frame of the same unique identifier, or is appended; other frames stay. -/
def seqAdd (id : String) (f : Frame) : List (String × Frame) → List (String × Frame)
  | [] => [(id, f)]
  | (i, g) :: rest =>
    if i = id ∧ g.UniqueIdentifier = f.UniqueIdentifier then (id, f) :: rest
    else (i, g) :: seqAdd id f rest

/-- Modelled from the spec: library method `tag.AddFrame(id, f)`, not among
the sources, with the upsert semantics of the specification: nothing for the
empty ID; otherwise the frame goes into the sequence of `id`, or takes the
place of the frame of `id`, and the frames under other IDs are left intact. -/
def Tag.AddFrame (lib : Lib) (tag : Tag) (id : String) (f : Frame) : Tag :=
  if id = "" then tag
  else if lib.mustFrameBeInSequence id then { tag with frames := seqAdd id f tag.frames }
  else { tag with frames := tag.frames.filter (fun p => p.1 ≠ id) ++ [(id, f)] }

/-- Library method `tag.CommonID(description)`. -/
def Tag.CommonID (lib : Lib) (tag : Tag) (description : String) : String :=
  lib.CommonID tag.version description

/-- Library method `tag.DefaultEncoding()`. -/
def Tag.DefaultEncoding (lib : Lib) (tag : Tag) : Encoding :=
  lib.DefaultEncoding tag.version

/-- Library method `tag.AddTextFrame(id, encoding, text)`. -/
def Tag.AddTextFrame (lib : Lib) (tag : Tag) (id : String) (enc : Encoding) (text : String) : Tag :=
  tag.AddFrame lib id (.text ⟨enc, text⟩)

/-- A call of the program on an open tag, with its arguments. -/
inductive TagOp where
  | DeleteAllFrames
  | AddAttachedPicture (pf : PictureFrame)
  | SetVersion (version : Nat)
  | SetTitle (title : String)
  | SetAlbum (album : String)
  | SetArtist (artist : String)
  | SetGenre (genre : String)
  | SetYear (year : String)
  | AddTextFrame (id : String) (enc : Encoding) (text : String)
  | AddCommentFrame (cf : CommentFrame)
deriving DecidableEq, Repr

/-- Modelled from the spec: effect of a library call on the tag in memory
(the library is not among the sources): `DeleteAllFrames` removes every
frame, `SetVersion` sets the version, and every other call is an `AddFrame`
under the frame ID of its field. -/
def Tag.apply (lib : Lib) (tag : Tag) : TagOp → Tag
  | .DeleteAllFrames => { tag with frames := [] }
  | .AddAttachedPicture pf => tag.AddFrame lib (tag.CommonID lib "Attached picture") (.picture pf)
  | .SetVersion v => { tag with version := v }
  | .SetTitle s => tag.AddTextFrame lib (tag.CommonID lib "Title") (tag.DefaultEncoding lib) s
  | .SetAlbum s =>
    tag.AddTextFrame lib (tag.CommonID lib "Album/Movie/Show title") (tag.DefaultEncoding lib) s
  | .SetArtist s => tag.AddTextFrame lib (tag.CommonID lib "Artist") (tag.DefaultEncoding lib) s
  | .SetGenre s => tag.AddTextFrame lib (tag.CommonID lib "Genre") (tag.DefaultEncoding lib) s
  | .SetYear s => tag.AddTextFrame lib (tag.CommonID lib "Year") (tag.DefaultEncoding lib) s
  | .AddTextFrame id enc s => tag.AddTextFrame lib id enc s
  | .AddCommentFrame cf => tag.AddFrame lib (tag.CommonID lib "Comments") (.comment cf)

end id3v2

/-! ## The catalog (`github.com/zmb3/spotify`) -/

namespace spotify

/-- Library type `spotify.SimpleArtist`, the field the program reads. -/
structure SimpleArtist where
  Name : String
deriving DecidableEq, Repr

/-- Library type `spotify.Copyright`; `Kind` is its field `Type`. -/
structure Copyright where
  Text : String
  Kind : String
deriving DecidableEq, Repr

/-- Library type `spotify.Image`, the field the program reads. -/
structure Image where
  URL : String
deriving DecidableEq, Repr

/-- Library type `spotify.FullAlbum`, the fields the program reads. -/
structure FullAlbum where
  Name : String
  AlbumType : String
  ReleaseDate : String
  Genres : List String
  Copyrights : List Copyright
  Images : List Image
deriving DecidableEq, Repr

/-- Library type `spotify.FullTrack`, the fields the program reads; `AlbumID`
is `track.Album.ID` and `ExternalURLs` a map given by its entries. -/
structure FullTrack where
  Name : String
  Artists : List SimpleArtist
  AlbumID : String
  TrackNumber : Int
  DiscNumber : Int
  Duration : Int
  ExternalURLs : List (String × String)
deriving DecidableEq, Repr

end spotify

/-! ## Data model of `main.go` -/

/-- Struct `Opts` of `main.go`. -/
structure Opts where
  Term : String
  Genres : List String
  Reset : Bool
  Rename : Bool
deriving DecidableEq, Repr

/-- Struct `Info` of `main.go`. -/
structure Info where
  AlbumTitle : String
  AlbumType : String
  ArtistNames : List String
  Copyright : List String
  CoverURL : String
  DiscNumber : Int
  Duration : Int
  Genres : List String
  Index : Int
  Publishing : List String
  ReleaseDate : time.Time
  TrackNumber : Int
  TrackTitle : String
  URL : String
deriving DecidableEq, Repr

/-- An entry of a directory listing (`os.FileInfo`). -/
structure FileInfo where
  Name : String
  IsDir : Bool
deriving DecidableEq, Repr

/-! ## The outside world -/

/-- The three places where `DoOne` reads a line of standard input. -/
inductive Prompt where
  | newTerm
  | choose
  | genres
deriving DecidableEq, Repr

/-- What the program prints. -/
inductive Msg where
  | filename (name : String)
  | searching (term : String)
  | noResults
  | info (info : Info)
  | choosePrompt (n : Nat)
  | notAChoice
  | enterGenres
  | renameFailed (err : String)
  | error (err : String)
  | blank
deriving DecidableEq, Repr

/-- One step of a run that can be observed: an interaction of the program
with the outside world, or the entry into `DoOne` or `WriteTags`. `save` and
`rename` carry the error the call came back with, if any. -/
inductive Event where
  | say (m : Msg)
  | read (p : Prompt) (line : String)
  | search (term : String)
  | getAlbum (id : String)
  | readDir (dir : String)
  | doOne (filename : String)
  | writeTags (info : Info) (filename : String) (reset : Bool)
  | openTag (filename : String)
  | tag (filename : String) (op : id3v2.TagOp)
  | httpGet (url : String)
  | save (filename : String) (tag : id3v2.Tag) (err : Option String)
  | rename (oldpath : String) (newpath : String) (err : Option String)
deriving DecidableEq, Repr

/-- Answer to an HTTP GET followed by reading the body: the request fails, or
reading the body fails, or the body arrives. -/
inductive HttpReply where
  | getFailed (err : String)
  | readFailed (err : String)
  | body (bytes : List Nat)
deriving DecidableEq, Repr

/-- Answers of the outside world. The first argument of each oracle is the
number of calls the program has made before this one. -/
structure Env where
  Search : Nat → String → Except String (List spotify.FullTrack)
  GetAlbum : Nat → String → Except String spotify.FullAlbum
  ReadDir : Nat → String → Except String (List FileInfo)
  Open : Nat → String → Except String id3v2.Tag
  Get : Nat → String → HttpReply
  Save : Nat → String → id3v2.Tag → Option String
  Rename : Nat → String → String → Option String

/-- State of a run: the number of calls to the outside world so far and the
lines of standard input not read yet, each as `ReadString` returns it. -/
structure World where
  tick : Nat
  stdin : List String
deriving DecidableEq, Repr

deriving instance DecidableEq for Except

/-- How a call ends: it returns, it panics, or the model runs out of fuel. -/
inductive Outcome (α : Type) where
  | ret (a : α)
  | panic (msg : String)
  | outOfFuel
deriving DecidableEq, Repr

/-- Result of running a piece of the program: how it ended, the world it
left, and the events it produced in order. -/
structure Res (α : Type) where
  out : Outcome α
  world : World
  trace : List Event

/-- A piece of the program: a function from the world before it. -/
def M (α : Type) : Type := World → Res α

/-- Returning a value without touching the world. -/
def M.pure {α : Type} (a : α) : M α := fun w => ⟨.ret a, w, []⟩

/-- Sequencing: a panic or exhaustion of the first part ends the whole. -/
def M.bind {α β : Type} (x : M α) (f : α → M β) : M β := fun w =>
  match (x w).out with
  | .ret a => ⟨(f a (x w).world).out, (f a (x w).world).world, (x w).trace ++ (f a (x w).world).trace⟩
  | .panic msg => ⟨.panic msg, (x w).world, (x w).trace⟩
  | .outOfFuel => ⟨.outOfFuel, (x w).world, (x w).trace⟩

instance : Monad M where
  pure := M.pure
  bind := M.bind

/-- A Go panic. -/
def panicWith {α : Type} (msg : String) : M α := fun w => ⟨.panic msg, w, []⟩

/-- The model is out of fuel. -/
def outOfFuel {α : Type} : M α := fun w => ⟨.outOfFuel, w, []⟩

/-- Recording one event. -/
def emit (e : Event) : M Unit := fun w => ⟨.ret (), w, [e]⟩

/-- Printing a message (`fmt.Printf`, `fmt.Println`). -/
def say (m : Msg) : M Unit := emit (.say m)

/-- Reading a line (`reader.ReadString`): the next line of standard input, or
the empty string at the end of input; the error is ignored by every caller. -/
def readLine (p : Prompt) : M String := fun w =>
  ⟨.ret (w.stdin.headD ""), { w with stdin := w.stdin.tail }, [.read p (w.stdin.headD "")]⟩

/-- Asking an oracle: the answer depends on the tick, which advances. -/
def ask {α : Type} (e : Event) (answer : Nat → α) : M α := fun w =>
  ⟨.ret (answer w.tick), { w with tick := w.tick + 1 }, [e]⟩

/-! ## `SearchTracks` -/

/-- Texts of the copyright lines of type `C`. -/
def copyrightsOf (album : spotify.FullAlbum) : List String :=
  (album.Copyrights.filter (fun x => x.Kind = "C")).map (fun x => x.Text)

/-- Texts of the copyright lines of type `P`. -/
def publishingOf (album : spotify.FullAlbum) : List String :=
  (album.Copyrights.filter (fun x => x.Kind ≠ "C" ∧ x.Kind = "P")).map (fun x => x.Text)

/-- The `Info` literal built by `SearchTracks` for the track at slice index
`i`, from its album and the first image of the album. -/
def mkInfo (i : Nat) (track : spotify.FullTrack) (album : spotify.FullAlbum)
    (image : spotify.Image) : Info :=
  { Index := ((i : Int) + 1)
    TrackTitle := track.Name
    AlbumTitle := album.Name
    AlbumType := album.AlbumType
    ArtistNames := track.Artists.map (fun a => a.Name)
    ReleaseDate := (time.Parse album.ReleaseDate).1
    Genres := album.Genres
    Copyright := copyrightsOf album
    Publishing := publishingOf album
    CoverURL := image.URL
    TrackNumber := track.TrackNumber
    DiscNumber := track.DiscNumber
    Duration := track.Duration
    URL := (track.ExternalURLs.lookup "spotify").getD "" }

/-- The loop of `SearchTracks` over the tracks of the response, from slice
index `i` on, with the candidates collected so far: a track whose album cannot
be fetched is skipped, and `album.Images[0]` panics on an empty image list. -/
def tracksLoop (env : Env) : Nat → List spotify.FullTrack → List Info → M (List Info)
  | _, [], infos => pure infos
  | i, track :: rest, infos => do
    match ← ask (.getAlbum track.AlbumID) (fun t => env.GetAlbum t track.AlbumID) with
    | .error _ => tracksLoop env (i + 1) rest infos
    | .ok album =>
      match album.Images with
      | [] => panicWith "runtime error: index out of range [0] with length 0"
      | image :: _ => tracksLoop env (i + 1) rest (infos ++ [mkInfo i track album image])

/-- `SearchTracks` of `main.go`. -/
def SearchTracks (env : Env) (term : String) : M (Except String (List Info)) := do
  match ← ask (.search term) (fun t => env.Search t term) with
  | .error err => pure (.error err)
  | .ok tracks =>
    let infos ← tracksLoop env 0 tracks []
    pure (.ok infos)

/-! ## `WriteTags` -/

/-- The picture frame `WriteTags` builds from the bytes of the cover. -/
def coverFrame (buf : List Nat) : id3v2.PictureFrame :=
  { Encoding := .UTF8
    MimeType := "image/jpeg"
    PictureType := id3v2.PTFrontCover
    Description := "Front cover"
    Picture := buf }

/-- One library call on the open tag of `filename`: it is recorded and gives
the tag after it. -/
def tagCall (lib : id3v2.Lib) (filename : String) (tag : id3v2.Tag) (op : id3v2.TagOp) :
    M id3v2.Tag := fun w =>
  ⟨.ret (tag.apply lib op), w, [.tag filename op]⟩

/-- Library method `tag.Save()`. -/
def saveTag (env : Env) (filename : String) (tag : id3v2.Tag) : M (Option String) := fun w =>
  ⟨.ret (env.Save w.tick filename tag), { w with tick := w.tick + 1 },
    [.save filename tag (env.Save w.tick filename tag)]⟩

/-- Lines 262 to 285 of `WriteTags`: the version, the fields, and the save. -/
def writeFields (lib : id3v2.Lib) (env : Env) (info : Info) (filename : String)
    (tag : id3v2.Tag) : M (Option String) := do
  let tag ← tagCall lib filename tag (.SetVersion 4)
  let tag ← tagCall lib filename tag (.SetTitle info.TrackTitle)
  let tag ← tagCall lib filename tag (.SetAlbum info.AlbumTitle)
  let tag ← tagCall lib filename tag (.SetArtist (strings.Join info.ArtistNames ", "))
  let tag ← tagCall lib filename tag (.SetGenre (strings.Join info.Genres ", "))
  let tag ← tagCall lib filename tag (.SetYear (time.Format info.ReleaseDate))
  let tag ← tagCall lib filename tag
    (.AddTextFrame (tag.CommonID lib "Track number/Position in set") (tag.DefaultEncoding lib)
      (strconv.Itoa info.TrackNumber))
  let tag ← tagCall lib filename tag
    (.AddTextFrame (tag.CommonID lib "Part of a set") (tag.DefaultEncoding lib)
      (strconv.Itoa info.DiscNumber))
  let tag ← tagCall lib filename tag
    (.AddTextFrame (tag.CommonID lib "Date") (tag.DefaultEncoding lib)
      (time.Format info.ReleaseDate))
  let tag ← tagCall lib filename tag
    (.AddTextFrame (tag.CommonID lib "Length") (tag.DefaultEncoding lib)
      (strconv.Itoa info.Duration))
  let tag ← tagCall lib filename tag
    (.AddTextFrame (tag.CommonID lib "Publisher") (tag.DefaultEncoding lib)
      (strings.Join info.Publishing ", "))
  let tag ← tagCall lib filename tag
    (.AddTextFrame (tag.CommonID lib "Copyright message") (tag.DefaultEncoding lib)
      (strings.Join info.Copyright ", "))
  let tag ← tagCall lib filename tag
    (.AddCommentFrame ⟨tag.DefaultEncoding lib, "eng", "Spotify URL", "Spotify URL: " ++ info.URL⟩)
  let tag ← tagCall lib filename tag (.AddTextFrame "WCOM" (tag.DefaultEncoding lib) info.URL)
  saveTag env filename tag

/-- `WriteTags` of `main.go`. A failure to open the tag panics; a failure to
fetch the cover returns the error before anything is saved. -/
def WriteTags (lib : id3v2.Lib) (env : Env) (info : Info) (filename : String) (reset : Bool) :
    M (Option String) := do
  emit (.writeTags info filename reset)
  match ← ask (.openTag filename) (fun t => env.Open t filename) with
  | .error err => panicWith err
  | .ok tag =>
    let tag ← if reset then tagCall lib filename tag .DeleteAllFrames else pure tag
    if info.CoverURL ≠ "" then
      match ← ask (.httpGet info.CoverURL) (fun t => env.Get t info.CoverURL) with
      | .getFailed err => pure (some err)
      | .readFailed err => pure (some err)
      | .body buf =>
        let tag ← tagCall lib filename tag (.AddAttachedPicture (coverFrame buf))
        writeFields lib env info filename tag
    else writeFields lib env info filename tag

/-! ## `DoOne` -/

/-- Where a loop of `DoOne` leaves the function: `done r` is a `return r`
inside the loop, `next a` is the loop ending with the value `a`. -/
inductive Step (ρ α : Type) where
  | done (r : ρ)
  | next (a : α)
deriving DecidableEq, Repr

/-- The search loop of `DoOne` (lines 106 to 121), entered with no candidates:
search, and on an empty result ask for a new term, until there are candidates,
the search fails or the operator answers `q`. -/
def searchLoop (env : Env) : Nat → String → M (Step (Option String) (List Info))
  | 0, _ => outOfFuel
  | fuel + 1, search => do
    say (.searching search)
    match ← SearchTracks env search with
    | .error err => pure (.done (some err))
    | .ok infos =>
      if infos.length = 0 then do
        say .noResults
        let choice ← readLine .newTerm
        if choice = "q\n" then pure (.done none)
        else searchLoop env fuel (strings.TrimSpace choice)
      else pure (.next infos)

/-- The inner loop of the selection (lines 137 to 141): the last candidate
whose `Index` is the choice, if any. -/
def pick (choice : Int) (infos : List Info) : Option Info :=
  infos.foldl (fun found x => if x.Index = choice then some x else found) none

/-- The selection loop of `DoOne` (lines 126 to 145): ask for a choice until
it names a candidate or the operator answers `q`. -/
def chooseLoop (infos : List Info) : Nat → M (Step (Option String) Info)
  | 0 => outOfFuel
  | fuel + 1 => do
    say (.choosePrompt infos.length)
    let choiceStr ← readLine .choose
    if choiceStr = "q\n" then pure (.done none)
    else
      match pick (strconv.Atoi (strings.TrimSpace choiceStr)).1 infos with
      | some info => pure (.next info)
      | none => do
        say .notAChoice
        chooseLoop infos fuel

/-- The genre step of `DoOne` (lines 147 to 156): the candidate with its
genres completed. -/
def mergeGenres (info : Info) (opts : Opts) : M Info :=
  if info.Genres.length = 0 then
    if opts.Genres.length = 0 then do
      say .enterGenres
      let x ← readLine .genres
      pure { info with Genres := CommaString x }
    else pure { info with Genres := opts.Genres }
  else pure info

/-- The new path of the rename of `DoOne` (lines 163 to 165). -/
def renameTarget (info : Info) (filename : String) : String :=
  filepath.Join [filepath.Dir filename,
    strings.Join info.ArtistNames ", " ++ " - " ++ info.TrackTitle ++ filepath.Ext filename]

/-- Library call `os.Rename(oldpath, newpath)`. -/
def osRename (env : Env) (oldpath newpath : String) : M (Option String) := fun w =>
  ⟨.ret (env.Rename w.tick oldpath newpath), { w with tick := w.tick + 1 },
    [.rename oldpath newpath (env.Rename w.tick oldpath newpath)]⟩

/-- The end of `DoOne` (lines 158 to 171): write the tags and, if asked,
rename the file. -/
def writeAndRename (lib : id3v2.Lib) (env : Env) (info : Info) (filename : String)
    (opts : Opts) : M (Option String) := do
  match ← WriteTags lib env info filename opts.Reset with
  | some err => pure (some err)
  | none =>
    if opts.Rename then
      match ← osRename env filename (renameTarget info filename) with
      | some err => do
        say (.renameFailed err)
        pure none
      | none => pure none
    else pure none

/-- The loop of `DoOne` that prints every candidate (lines 123 to 125). -/
def showAll : List Info → M Unit
  | [] => pure ()
  | info :: rest => do
    say (.info info)
    showAll rest

/-- `DoOne` of `main.go`; `fuel` bounds the number of rounds of each of its
two prompt loops. -/
def DoOne (lib : id3v2.Lib) (env : Env) (fuel : Nat) (filename : String) (opts : Opts) :
    M (Option String) := do
  emit (.doOne filename)
  say (.filename filename)
  let search := if opts.Term = "" then TermFromFilename filename else opts.Term
  match ← searchLoop env fuel search with
  | .done r => pure r
  | .next infos =>
    showAll infos
    match ← chooseLoop infos fuel with
    | .done r => pure r
    | .next info =>
      let info ← mergeGenres info opts
      writeAndRename lib env info filename opts

/-! ## `DoDirectory` -/

/-- The loop of `DoDirectory` over the directory listing. -/
def dirLoop (lib : id3v2.Lib) (env : Env) (fuel : Nat) (filename : String) (opts : Opts) :
    List FileInfo → M Unit
  | [] => pure ()
  | file :: rest =>
    if file.IsDir then dirLoop lib env fuel filename opts rest
    else if strings.ToLower (filepath.Ext file.Name) ≠ ".mp3" then
      dirLoop lib env fuel filename opts rest
    else do
      match ← DoOne lib env fuel (filepath.Join [filename, file.Name]) opts with
      | some err => say (.error err)
      | none => say .blank
      dirLoop lib env fuel filename opts rest

/-- `DoDirectory` of `main.go`. -/
def DoDirectory (lib : id3v2.Lib) (env : Env) (fuel : Nat) (filename : String) (opts : Opts) :
    M (Option String) := do
  let opts := { opts with Term := "" }
  match ← ask (.readDir filename) (fun t => env.ReadDir t filename) with
  | .error err => pure (some err)
  | .ok files =>
    dirLoop lib env fuel filename opts files
    pure none

/-! ## Concrete scenarios -/

namespace Scenario

/-- A track of the catalog. -/
def rhapsody : spotify.FullTrack :=
  { Name := "Bohemian Rhapsody"
    Artists := [⟨"Queen"⟩]
    AlbumID := "opera"
    TrackNumber := 11
    DiscNumber := 1
    Duration := 354320
    ExternalURLs := [("spotify", "https://open.spotify.com/track/1")] }

/-- Another track of the catalog, on another album. -/
def thunderstruck : spotify.FullTrack :=
  { Name := "Thunderstruck"
    Artists := [⟨"AC/DC"⟩]
    AlbumID := "razor"
    TrackNumber := 1
    DiscNumber := 1
    Duration := 292880
    ExternalURLs := [("spotify", "https://open.spotify.com/track/2")] }

/-- An album with one cover image and no genres. -/
def opera : spotify.FullAlbum :=
  { Name := "A Night at the Opera"
    AlbumType := "album"
    ReleaseDate := "1975-10-31"
    Genres := []
    Copyrights := [⟨"1975 Queen Productions", "C"⟩, ⟨"1975 Queen Productions Ltd", "P"⟩]
    Images := [⟨"https://i.scdn.co/image/opera"⟩] }

/-- The same album with an empty image list. -/
def operaNoImages : spotify.FullAlbum := { opera with Images := [] }

/-- An album of the second track. -/
def razor : spotify.FullAlbum :=
  { Name := "The Razors Edge"
    AlbumType := "album"
    ReleaseDate := "1990-09-24"
    Genres := ["hard rock"]
    Copyrights := []
    Images := [⟨"https://i.scdn.co/image/razor"⟩] }

/-- A tag on disk with a title and a frame the program never writes. -/
def oldTag : id3v2.Tag :=
  ⟨3, [("TIT2", .text ⟨.ISO, "old title"⟩), ("TBPM", .text ⟨.ISO, "120"⟩)]⟩

/-- A world where everything works: every search finds `rhapsody`. -/
def fine : Env :=
  { Search := fun _ _ => .ok [rhapsody]
    GetAlbum := fun _ _ => .ok opera
    ReadDir := fun _ _ => .ok [⟨"a.mp3", false⟩, ⟨"b.mp3", false⟩]
    Open := fun _ _ => .ok oldTag
    Get := fun _ _ => .body [255, 216, 255]
    Save := fun _ _ _ => none
    Rename := fun _ _ _ => none }

/-- A search with two results where the album of the first cannot be
fetched: the call with tick 1 is the first `GetAlbum`. -/
def gap : Env :=
  { fine with
    Search := fun _ _ => .ok [rhapsody, thunderstruck]
    GetAlbum := fun t id =>
      if t = 1 then .error "Get album: 502 Bad Gateway"
      else if id = "razor" then .ok razor else .ok opera }

/-- A search whose only result has an album without images. -/
def noImages : Env := { fine with GetAlbum := fun _ _ => .ok operaNoImages }

/-- A directory of two files where the tag of `a.mp3` cannot be opened. -/
def badTag : Env :=
  { fine with
    Open := fun _ f =>
      if f = "music/a.mp3" then .error "unsupported version of ID3 tag" else .ok oldTag }

/-- A search that finds `thunderstruck`. -/
def acdc : Env :=
  { fine with
    Search := fun _ _ => .ok [thunderstruck]
    GetAlbum := fun _ _ => .ok razor }

/-- A search that finds nothing. -/
def nothing : Env := { fine with Search := fun _ _ => .ok [] }

/-- A world where the cover cannot be fetched. -/
def noCover : Env := { fine with Get := fun _ _ => .getFailed "Get: connection refused" }

/-- Options with nothing set. -/
def plain : Opts := ⟨"", [], false, false⟩

/-- The candidate `SearchTracks` builds for `thunderstruck` at slice index 1. -/
def second : Info := mkInfo 1 thunderstruck razor ⟨"https://i.scdn.co/image/razor"⟩

/-- The candidate `SearchTracks` builds for `rhapsody` at slice index 0. -/
def first : Info := mkInfo 0 rhapsody opera ⟨"https://i.scdn.co/image/opera"⟩

end Scenario

/-! ## Specification vocabulary -/

/-- The string `e` is `p` trimmed: `p` is `e` between two runs of white
space, and `e` neither starts nor ends with white space. -/
def IsTrimOf (p e : List Char) : Prop :=
  ∃ l r, p = l ++ e ++ r ∧ (∀ c ∈ l, unicode.IsSpace c = true) ∧
    (∀ c ∈ r, unicode.IsSpace c = true) ∧
    (∀ c, e.head? = some c → unicode.IsSpace c = false) ∧
    (∀ c, e.getLast? = some c → unicode.IsSpace c = false)

/-- The library calls of lines 262 to 283 of `WriteTags` on a tag, in order. -/
def fieldOps (lib : id3v2.Lib) (info : Info) : List id3v2.TagOp :=
  [ .SetVersion 4,
    .SetTitle info.TrackTitle,
    .SetAlbum info.AlbumTitle,
    .SetArtist (strings.Join info.ArtistNames ", "),
    .SetGenre (strings.Join info.Genres ", "),
    .SetYear (time.Format info.ReleaseDate),
    .AddTextFrame (lib.CommonID 4 "Track number/Position in set") (lib.DefaultEncoding 4)
      (strconv.Itoa info.TrackNumber),
    .AddTextFrame (lib.CommonID 4 "Part of a set") (lib.DefaultEncoding 4)
      (strconv.Itoa info.DiscNumber),
    .AddTextFrame (lib.CommonID 4 "Date") (lib.DefaultEncoding 4) (time.Format info.ReleaseDate),
    .AddTextFrame (lib.CommonID 4 "Length") (lib.DefaultEncoding 4) (strconv.Itoa info.Duration),
    .AddTextFrame (lib.CommonID 4 "Publisher") (lib.DefaultEncoding 4)
      (strings.Join info.Publishing ", "),
    .AddTextFrame (lib.CommonID 4 "Copyright message") (lib.DefaultEncoding 4)
      (strings.Join info.Copyright ", "),
    .AddCommentFrame ⟨lib.DefaultEncoding 4, "eng", "Spotify URL", "Spotify URL: " ++ info.URL⟩,
    .AddTextFrame "WCOM" (lib.DefaultEncoding 4) info.URL ]

/-- The frames these calls set, each with its frame ID, in order: the fields
the pipeline writes into every tag. -/
def fieldFrames (lib : id3v2.Lib) (info : Info) : List (String × id3v2.Frame) :=
  [ (lib.CommonID 4 "Title", .text ⟨lib.DefaultEncoding 4, info.TrackTitle⟩),
    (lib.CommonID 4 "Album/Movie/Show title", .text ⟨lib.DefaultEncoding 4, info.AlbumTitle⟩),
    (lib.CommonID 4 "Artist",
      .text ⟨lib.DefaultEncoding 4, strings.Join info.ArtistNames ", "⟩),
    (lib.CommonID 4 "Genre", .text ⟨lib.DefaultEncoding 4, strings.Join info.Genres ", "⟩),
    (lib.CommonID 4 "Year", .text ⟨lib.DefaultEncoding 4, time.Format info.ReleaseDate⟩),
    (lib.CommonID 4 "Track number/Position in set",
      .text ⟨lib.DefaultEncoding 4, strconv.Itoa info.TrackNumber⟩),
    (lib.CommonID 4 "Part of a set", .text ⟨lib.DefaultEncoding 4, strconv.Itoa info.DiscNumber⟩),
    (lib.CommonID 4 "Date", .text ⟨lib.DefaultEncoding 4, time.Format info.ReleaseDate⟩),
    (lib.CommonID 4 "Length", .text ⟨lib.DefaultEncoding 4, strconv.Itoa info.Duration⟩),
    (lib.CommonID 4 "Publisher",
      .text ⟨lib.DefaultEncoding 4, strings.Join info.Publishing ", "⟩),
    (lib.CommonID 4 "Copyright message",
      .text ⟨lib.DefaultEncoding 4, strings.Join info.Copyright ", "⟩),
    (lib.CommonID 4 "Comments",
      .comment ⟨lib.DefaultEncoding 4, "eng", "Spotify URL", "Spotify URL: " ++ info.URL⟩),
    ("WCOM", .text ⟨lib.DefaultEncoding 4, info.URL⟩) ]

/-- The frames the pipeline sets in a run of `WriteTags`: the cover, when its
bytes `cover` were fetched for a tag of version `v`, and the fields. -/
def pipelineFrames (lib : id3v2.Lib) (info : Info) (v : Nat) (cover : Option (List Nat)) :
    List (String × id3v2.Frame) :=
  match cover with
  | some buf => (lib.CommonID v "Attached picture", .picture (coverFrame buf)) :: fieldFrames lib info
  | none => fieldFrames lib info

/-- A tag after adding frames one after the other. -/
def addAll (lib : id3v2.Lib) (tag : id3v2.Tag) (fs : List (String × id3v2.Frame)) : id3v2.Tag :=
  fs.foldl (fun t p => t.AddFrame lib p.1 p.2) tag

/-- The frame IDs of the fields, in the order they are written. -/
def fieldIDs (lib : id3v2.Lib) : List String :=
  [ lib.CommonID 4 "Title", lib.CommonID 4 "Album/Movie/Show title", lib.CommonID 4 "Artist",
    lib.CommonID 4 "Genre", lib.CommonID 4 "Year", lib.CommonID 4 "Track number/Position in set",
    lib.CommonID 4 "Part of a set", lib.CommonID 4 "Date", lib.CommonID 4 "Length",
    lib.CommonID 4 "Publisher", lib.CommonID 4 "Copyright message", lib.CommonID 4 "Comments",
    "WCOM" ]

/-- The library keeps the frame of a description as a single frame of its
own: its frame ID is not empty, does not hold a sequence, and no other field
of the pipeline is written under it. -/
def ownSlot (lib : id3v2.Lib) (description : String) : Bool :=
  lib.CommonID 4 description != "" && !lib.mustFrameBeInSequence (lib.CommonID 4 description) &&
    (fieldIDs lib).count (lib.CommonID 4 description) == 1

/-- The library keeps title, album and artist as single frames of their own. -/
def keepsNames (lib : id3v2.Lib) : Bool :=
  ownSlot lib "Title" && ownSlot lib "Album/Movie/Show title" && ownSlot lib "Artist"

/-- The frames of a tag under the frame ID `id`. -/
def framesOf (tag : id3v2.Tag) (id : String) : List (String × id3v2.Frame) :=
  tag.frames.filter (fun p => p.1 = id)

/-- The cover bytes `WriteTags` embeds, when it fetches them: the answer to
the request made right after the tag was opened at tick `t`. -/
def fetchedCover (env : Env) (info : Info) (t : Nat) : Option (List Nat) :=
  if info.CoverURL ≠ "" then
    match env.Get (t + 1) info.CoverURL with
    | .body buf => some buf
    | _ => none
  else none

/-- The event is a call that sets a picture frame. -/
def Event.isPicture : Event → Bool
  | .tag _ (.AddAttachedPicture _) => true
  | _ => false

/-- The event is an HTTP request. -/
def Event.isGet : Event → Bool
  | .httpGet _ => true
  | _ => false

/-- The event is a call of `Save`. -/
def Event.isSave : Event → Bool
  | .save _ _ _ => true
  | _ => false

/-- The tag `WriteTags` holds in memory when it comes to the fields: the tag
that was opened at tick `t`, emptied on a reset, with the cover added when it
was fetched. -/
def savedBase (lib : id3v2.Lib) (env : Env) (info : Info) (reset : Bool) (t : Nat)
    (tag : id3v2.Tag) : id3v2.Tag :=
  match fetchedCover env info t with
  | some buf =>
    (if reset then tag.apply lib .DeleteAllFrames else tag).apply lib
      (.AddAttachedPicture (coverFrame buf))
  | none => if reset then tag.apply lib .DeleteAllFrames else tag

/-- The event belongs to the writing of a file: a call of `WriteTags`,
anything it does to the tag or the network, or a rename. -/
def Event.isWrite : Event → Bool
  | .writeTags _ _ _ => true
  | .openTag _ => true
  | .tag _ _ => true
  | .httpGet _ => true
  | .save _ _ _ => true
  | .rename _ _ _ => true
  | _ => false

/-- The event is the quit signal: the line `q` read at the prompt for a new
search term or at the selection prompt. -/
def Event.isQuit : Event → Bool
  | .read .newTerm line => line = "q\n"
  | .read .choose line => line = "q\n"
  | _ => false

/-- The path that `Clean` writes for a stack of elements, innermost first. -/
def filepath.render (rooted : Bool) (stack : List (List Char)) : List Char :=
  if rooted then '/' :: strings.joinChars ['/'] stack.reverse
  else if strings.joinChars ['/'] stack.reverse = [] then ['.']
  else strings.joinChars ['/'] stack.reverse

/-- Stacks of path elements in normal form, innermost first: no element is
empty, is `.` or holds a separator, and `..` occurs only at the start of a
path that is not rooted. -/
inductive filepath.Normal (rooted : Bool) : List (List Char) → Prop where
  | nil : filepath.Normal rooted []
  | push (c : List Char) (stack : List (List Char)) (h : filepath.Normal rooted stack)
      (hne : c ≠ []) (hdot : c ≠ ['.']) (hsep : '/' ∉ c)
      (hup : c = ['.', '.'] → rooted = false ∧ (stack = [] ∨ stack.head? = some ['.', '.'])) :
      filepath.Normal rooted (c :: stack)

/-- The event is a rename. -/
def Event.isRename : Event → Bool
  | .rename _ _ _ => true
  | _ => false

/-- The tag that `WriteTags` saves in scenario `fine` for the candidate
`first`, over the tag `oldTag` and without a reset. -/
def Scenario.newTag : id3v2.Tag :=
  ⟨4, [("TBPM", .text ⟨.ISO, "120"⟩),
    ("APIC", .picture ⟨.UTF8, "image/jpeg", 3, "Front cover", [255, 216, 255]⟩),
    ("TIT2", .text ⟨.UTF8, "Bohemian Rhapsody"⟩),
    ("TALB", .text ⟨.UTF8, "A Night at the Opera"⟩),
    ("TPE1", .text ⟨.UTF8, "Queen"⟩),
    ("TCON", .text ⟨.UTF8, ""⟩),
    ("TRCK", .text ⟨.UTF8, "11"⟩),
    ("TPOS", .text ⟨.UTF8, "1"⟩),
    ("TDRC", .text ⟨.UTF8, "1975-10-31"⟩),
    ("TLEN", .text ⟨.UTF8, "354320"⟩),
    ("TPUB", .text ⟨.UTF8, "1975 Queen Productions Ltd"⟩),
    ("TCOP", .text ⟨.UTF8, "1975 Queen Productions"⟩),
    ("COMM", .comment ⟨.UTF8, "eng", "Spotify URL",
      "Spotify URL: https://open.spotify.com/track/1"⟩),
    ("WCOM", .text ⟨.UTF8, "https://open.spotify.com/track/1"⟩)]⟩

/-! ## Running the program on the scenarios -/

/-- C2, the code at the failing input: the response has two tracks and the
album of the first cannot be fetched; `SearchTracks` returns one candidate,
and its `Index` is 2, not 1. -/
theorem SearchTracks_skipped_leaves_gap :
    (SearchTracks Scenario.gap "Thunderstruck" ⟨0, []⟩).out = .ret (.ok [Scenario.second]) ∧
      [Scenario.second].map Info.Index = [2] := by
  decide

/-- C10, the code at the failing input: the album of the only result has no
images; `SearchTracks` panics with an index out of range and returns no
candidate. -/
theorem SearchTracks_empty_images_panics :
    (SearchTracks Scenario.noImages "Bohemian Rhapsody" ⟨0, []⟩).out =
      .panic "runtime error: index out of range [0] with length 0" := by
  decide

/-- C3, the code at the failing input: for the one-candidate list that
`SearchTracks` returns in scenario `gap` (N = 1), the input `2`, which is
N + 1, chooses the candidate at once, and the input `1` is refused. -/
theorem chooseLoop_accepts_N_plus_one :
    (SearchTracks Scenario.gap "Thunderstruck" ⟨0, []⟩).out = .ret (.ok [Scenario.second]) ∧
      (chooseLoop [Scenario.second] 1 ⟨3, ["2\n"]⟩).out = .ret (.next Scenario.second) ∧
      (chooseLoop [Scenario.second] 1 ⟨3, ["2\n"]⟩).trace =
        [.say (.choosePrompt 1), .read .choose "2\n"] ∧
      (chooseLoop [Scenario.second] 2 ⟨3, ["1\n", "q\n"]⟩).trace =
        [.say (.choosePrompt 1), .read .choose "1\n", .say .notAChoice,
          .say (.choosePrompt 1), .read .choose "q\n"] := by
  decide

/-- C5, the code at the failing input: in a directory of `a.mp3` and `b.mp3`
where the tag of `a.mp3` cannot be opened, `DoDirectory` does not return: it
panics, and `DoOne` is never entered for `b.mp3`. -/
theorem DoDirectory_open_failure_stops_batch :
    (DoDirectory id3v2.v24 Scenario.badTag 3 "music" Scenario.plain
        ⟨0, ["1\n", "rock\n", "1\n", "rock\n"]⟩).out = .panic "unsupported version of ID3 tag" ∧
      Event.doOne "music/a.mp3" ∈ (DoDirectory id3v2.v24 Scenario.badTag 3 "music" Scenario.plain
        ⟨0, ["1\n", "rock\n", "1\n", "rock\n"]⟩).trace ∧
      Event.doOne "music/b.mp3" ∉ (DoDirectory id3v2.v24 Scenario.badTag 3 "music" Scenario.plain
        ⟨0, ["1\n", "rock\n", "1\n", "rock\n"]⟩).trace := by
  decide

/-! ## `strings`: trimming and splitting -/

theorem strings.trimLeft_spec (s : List Char) :
    ∃ l, s = l ++ strings.trimLeft s ∧ (∀ c ∈ l, unicode.IsSpace c = true) ∧
      (∀ c, (strings.trimLeft s).head? = some c → unicode.IsSpace c = false) := by
  refine ⟨s.takeWhile unicode.IsSpace, ?_, ?_, ?_⟩
  · simp [strings.trimLeft]
  · intro c hc
    exact List.mem_takeWhile_imp hc
  · intro c hc
    have h := List.head?_dropWhile_not unicode.IsSpace s
    simp only [strings.trimLeft] at hc
    rw [hc] at h
    simpa using h

theorem strings.trimRight_spec (s : List Char) :
    ∃ r, s = strings.trimRight s ++ r ∧ (∀ c ∈ r, unicode.IsSpace c = true) ∧
      (∀ c, (strings.trimRight s).getLast? = some c → unicode.IsSpace c = false) := by
  obtain ⟨l, hl, hsp, hhead⟩ := strings.trimLeft_spec s.reverse
  refine ⟨l.reverse, ?_, ?_, ?_⟩
  · have := congrArg List.reverse hl
    simpa [strings.trimRight] using this
  · intro c hc
    exact hsp c (by simpa using hc)
  · intro c hc
    apply hhead c
    simpa [strings.trimRight, List.getLast?_reverse] using hc

theorem strings.head?_trimRight (s : List Char) (c : Char)
    (h : (strings.trimRight s).head? = some c) : s.head? = some c := by
  obtain ⟨r, hr, -, -⟩ := strings.trimRight_spec s
  rw [hr]
  cases ht : strings.trimRight s with
  | nil => simp [ht] at h
  | cons a t => simpa [ht] using h

/-- `TrimSpace` removes white space at both ends and nothing else. -/
theorem strings.TrimSpace_isTrimOf (s : String) : IsTrimOf s.data (strings.TrimSpace s).data := by
  obtain ⟨l, hl, hlsp, hhead⟩ := strings.trimLeft_spec s.data
  obtain ⟨r, hr, hrsp, hlast⟩ := strings.trimRight_spec (strings.trimLeft s.data)
  refine ⟨l, r, ?_, hlsp, hrsp, ?_, hlast⟩
  · simp only [strings.TrimSpace]
    rw [List.append_assoc, ← hr, ← hl]
  · intro c hc
    exact hhead c (strings.head?_trimRight _ c hc)

/-- A string trims to the empty string exactly when it is blank. -/
theorem strings.TrimSpace_eq_empty (s : String) :
    strings.TrimSpace s = "" ↔ ∀ c ∈ s.data, unicode.IsSpace c = true := by
  constructor
  · intro h
    obtain ⟨l, r, hs, hl, hr, -, -⟩ := strings.TrimSpace_isTrimOf s
    rw [h] at hs
    change s.data = l ++ [] ++ r at hs
    intro c hc
    rw [hs] at hc
    simp only [List.append_nil, List.mem_append] at hc
    rcases hc with hc | hc
    · exact hl c hc
    · exact hr c hc
  · intro h
    have h1 : strings.trimLeft s.data = [] := by
      simpa [strings.trimLeft, List.dropWhile_eq_nil_iff] using h
    simp only [strings.TrimSpace, h1]
    rfl

theorem strings.splitAux_ne_nil (sep : Char) (s acc : List Char) :
    strings.splitAux sep acc s ≠ [] := by
  induction s generalizing acc with
  | nil => simp [strings.splitAux]
  | cons c cs ih =>
    simp only [strings.splitAux]
    split
    · simp
    · exact ih _

theorem strings.splitAux_join (sep : Char) (s acc : List Char) :
    strings.joinChars [sep] (strings.splitAux sep acc s) = acc.reverse ++ s := by
  induction s generalizing acc with
  | nil => simp [strings.splitAux, strings.joinChars]
  | cons c cs ih =>
    simp only [strings.splitAux]
    split
    · rename_i h
      have h2 := ih []
      cases hrest : strings.splitAux sep [] cs with
      | nil => exact absurd hrest (strings.splitAux_ne_nil sep cs [])
      | cons p ps =>
        rw [hrest] at h2
        simp only [strings.joinChars, h2, h]
        simp
    · rw [ih]
      simp

theorem strings.splitAux_no_sep (sep : Char) (s acc : List Char) (hacc : sep ∉ acc) :
    ∀ p ∈ strings.splitAux sep acc s, sep ∉ p := by
  induction s generalizing acc with
  | nil => simpa [strings.splitAux] using hacc
  | cons c cs ih =>
    simp only [strings.splitAux]
    split
    · intro p hp
      rcases List.mem_cons.1 hp with rfl | hp
      · simpa using hacc
      · exact ih [] (by simp) p hp
    · rename_i h
      apply ih
      simp only [List.mem_cons, not_or]
      exact ⟨fun e => h e.symm, hacc⟩

/-! ## `CommaString` -/

/-- C8, counterexample: an empty piece stays in the result as the empty
string, for each of the inputs the claim names. -/
theorem CommaString_keeps_empty_pieces :
    CommaString "a,,b" = ["a", "", "b"] ∧ "" ∈ CommaString "a,,b" ∧
      CommaString "a, " = ["a", ""] ∧ CommaString ",a" = ["", "a"] := by
  decide

/-- C8, as amended: for a blank input `CommaString` returns the empty list;
for any other input it returns, in order, one element for each of the pieces
between the commas of the input, and each element is its piece trimmed of
surrounding white space. Pieces that are empty after trimming are kept. -/
theorem CommaString_trimmed_pieces (a : String) :
    ((∀ c ∈ a.data, unicode.IsSpace c = true) → CommaString a = []) ∧
      ((¬ ∀ c ∈ a.data, unicode.IsSpace c = true) →
        ∃ pieces : List (List Char),
          strings.joinChars [','] pieces = a.data ∧ (∀ p ∈ pieces, ',' ∉ p) ∧
          List.Forall₂ (fun p e => IsTrimOf p e.data) pieces (CommaString a)) := by
  constructor
  · intro h
    simp [CommaString, (strings.TrimSpace_eq_empty a).2 h]
  · intro h
    have hne : strings.TrimSpace a ≠ "" := fun e => h ((strings.TrimSpace_eq_empty a).1 e)
    refine ⟨strings.splitChars ',' a.data, ?_, ?_, ?_⟩
    · simpa [strings.splitChars] using strings.splitAux_join ',' a.data []
    · exact strings.splitAux_no_sep ',' a.data [] (by simp)
    · simp only [CommaString, if_neg hne, strings.Split, List.map_map]
      rw [List.forall₂_map_right_iff]
      apply List.forall₂_same.2
      intro p _
      exact strings.TrimSpace_isTrimOf ⟨p⟩

/-! ## Running pieces of the program -/

@[simp] theorem M.pure_eq {α : Type} (a : α) : @Pure.pure M _ α a = M.pure a := rfl

@[simp] theorem M.bind_eq {α β : Type} (x : M α) (f : α → M β) :
    @Bind.bind M _ α β x f = M.bind x f := rfl

@[simp] theorem M.pure_run {α : Type} (a : α) (w : World) : M.pure a w = ⟨.ret a, w, []⟩ := rfl

theorem M.bind_ret {α β : Type} (x : M α) (f : α → M β) (w : World) (a : α)
    (h : (x w).out = .ret a) :
    M.bind x f w =
      ⟨(f a (x w).world).out, (f a (x w).world).world, (x w).trace ++ (f a (x w).world).trace⟩ := by
  simp [M.bind, h]

/-- An event of a sequence is an event of its first part, or of its second
part run after the first returned. -/
theorem M.mem_trace_bind {α β : Type} (x : M α) (f : α → M β) (w : World) (e : Event) :
    e ∈ (M.bind x f w).trace ↔
      e ∈ (x w).trace ∨ ∃ a, (x w).out = .ret a ∧ e ∈ (f a (x w).world).trace := by
  cases h : (x w).out with
  | ret a => simp [M.bind, h]
  | panic msg => simp [M.bind, h]
  | outOfFuel => simp [M.bind, h]

/-! ## The genre step -/

/-- C1: the genre step of `DoOne` follows the three-tier precedence. A
candidate that has genres is returned as it is, nothing is read and nothing
printed; otherwise, with default genres in the options, the candidate gets
exactly these, again without reading; otherwise one line is read at the genre
prompt and the candidate gets `CommaString` of that line. In each case the
result is the candidate with at most its `Genres` field replaced, and the
options are only read. -/
theorem mergeGenres_precedence (info : Info) (opts : Opts) (w : World) :
    (info.Genres ≠ [] →
        (mergeGenres info opts w).out = .ret info ∧
        (mergeGenres info opts w).world = w ∧ (mergeGenres info opts w).trace = []) ∧
      (info.Genres = [] → opts.Genres ≠ [] →
        (mergeGenres info opts w).out = .ret { info with Genres := opts.Genres } ∧
        (mergeGenres info opts w).world = w ∧ (mergeGenres info opts w).trace = []) ∧
      (info.Genres = [] → opts.Genres = [] →
        (mergeGenres info opts w).out =
          .ret { info with Genres := CommaString (w.stdin.headD "") } ∧
        (mergeGenres info opts w).world = { w with stdin := w.stdin.tail } ∧
        (mergeGenres info opts w).trace =
          [.say .enterGenres, .read .genres (w.stdin.headD "")]) := by
  refine ⟨fun h => ?_, fun h1 h2 => ?_, fun h1 h2 => ?_⟩
  · have : ¬ info.Genres.length = 0 := by simpa using h
    simp [mergeGenres, this]
  · have : ¬ opts.Genres.length = 0 := by simpa using h2
    simp [mergeGenres, h1, this]
  · simp [mergeGenres, h1, h2, M.bind, say, emit, readLine]

/-! ## `WriteTags` -/

@[simp] theorem id3v2.Tag.AddFrame_version (lib : id3v2.Lib) (tag : id3v2.Tag) (id : String)
    (f : id3v2.Frame) : (tag.AddFrame lib id f).version = tag.version := by
  unfold id3v2.Tag.AddFrame
  split
  · rfl
  · split <;> rfl

/-- The tag that `writeFields` hands to `Save`. -/
theorem writeFields_run (lib : id3v2.Lib) (env : Env) (info : Info) (filename : String)
    (tag : id3v2.Tag) (w : World) :
    writeFields lib env info filename tag w =
      ⟨.ret (env.Save w.tick filename (addAll lib { tag with version := 4 } (fieldFrames lib info))),
        { w with tick := w.tick + 1 },
        (fieldOps lib info).map (Event.tag filename) ++
          [.save filename (addAll lib { tag with version := 4 } (fieldFrames lib info))
            (env.Save w.tick filename (addAll lib { tag with version := 4 } (fieldFrames lib info)))]⟩ := by
  simp [writeFields, M.bind, tagCall, saveTag, id3v2.Tag.apply, id3v2.Tag.AddTextFrame,
    id3v2.Tag.CommonID, id3v2.Tag.DefaultEncoding, addAll, fieldFrames, fieldOps]

theorem fieldOps_no_picture (lib : id3v2.Lib) (info : Info) (filename : String) :
    ((fieldOps lib info).map (Event.tag filename)).filter Event.isPicture = [] ∧
      ((fieldOps lib info).map (Event.tag filename)).filter Event.isGet = [] ∧
      ((fieldOps lib info).map (Event.tag filename)).filter Event.isSave = [] := by
  simp [fieldOps, Event.isPicture, Event.isGet, Event.isSave]

/-- C7: with the tag open and a cover URL, a failed fetch (the request or the
reading of the body) makes `WriteTags` return that error without calling
`Save` and without setting a picture; a fetch that succeeds is followed by
exactly one call setting a picture frame, a front cover of MIME type
`image/jpeg` with the fetched bytes; with an empty cover URL there is no
request and no picture frame is set. -/
theorem WriteTags_cover (lib : id3v2.Lib) (env : Env) (info : Info) (filename : String)
    (reset : Bool) (w : World) (tag : id3v2.Tag) (hopen : env.Open w.tick filename = .ok tag) :
    (∀ err, info.CoverURL ≠ "" →
        (env.Get (w.tick + 1) info.CoverURL = .getFailed err ∨
          env.Get (w.tick + 1) info.CoverURL = .readFailed err) →
        (WriteTags lib env info filename reset w).out = .ret (some err) ∧
        (WriteTags lib env info filename reset w).trace.filter Event.isSave = [] ∧
        (WriteTags lib env info filename reset w).trace.filter Event.isPicture = []) ∧
      (∀ buf, info.CoverURL ≠ "" → env.Get (w.tick + 1) info.CoverURL = .body buf →
        (WriteTags lib env info filename reset w).trace.filter Event.isGet =
          [.httpGet info.CoverURL] ∧
        (WriteTags lib env info filename reset w).trace.filter Event.isPicture =
          [.tag filename (.AddAttachedPicture
            ⟨.UTF8, "image/jpeg", id3v2.PTFrontCover, "Front cover", buf⟩)]) ∧
      (info.CoverURL = "" →
        (WriteTags lib env info filename reset w).trace.filter Event.isGet = [] ∧
        (WriteTags lib env info filename reset w).trace.filter Event.isPicture = []) := by
  have hf := fieldOps_no_picture lib info filename
  refine ⟨fun err hurl hget => ?_, fun buf hurl hget => ?_, fun hurl => ?_⟩
  · rcases hget with hget | hget <;> cases reset <;>
      simp [WriteTags, M.bind, emit, ask, tagCall, hopen, hurl, hget, Event.isSave,
        Event.isPicture]
  · cases reset <;>
      simp [WriteTags, M.bind, emit, ask, tagCall, hopen, hurl, hget, writeFields_run,
        Event.isGet, Event.isPicture, hf, coverFrame, List.filter_cons]
  · cases reset <;>
      simp [WriteTags, M.bind, emit, ask, tagCall, hopen, hurl, writeFields_run,
        Event.isGet, Event.isPicture, hf, List.filter_cons]

/-- C7, at a concrete input: in scenario `noCover` the request for the cover
fails, and in scenario `fine` it succeeds. -/
theorem WriteTags_cover_witness :
    Scenario.noCover.Open 0 "music/a.mp3" = .ok Scenario.oldTag ∧
      (WriteTags id3v2.v24 Scenario.noCover Scenario.first "music/a.mp3" false ⟨0, []⟩).out =
        .ret (some "Get: connection refused") ∧
      (WriteTags id3v2.v24 Scenario.noCover Scenario.first "music/a.mp3" false
        ⟨0, []⟩).trace.filter Event.isSave = [] :=
  ⟨rfl,
    ((WriteTags_cover id3v2.v24 Scenario.noCover Scenario.first "music/a.mp3" false ⟨0, []⟩
      Scenario.oldTag rfl).1 "Get: connection refused" (by decide) (Or.inl rfl)).1,
    ((WriteTags_cover id3v2.v24 Scenario.noCover Scenario.first "music/a.mp3" false ⟨0, []⟩
      Scenario.oldTag rfl).1 "Get: connection refused" (by decide) (Or.inl rfl)).2.1⟩

/-! ## Frames of a tag under `AddFrame` -/

theorem id3v2.mem_seqAdd (id : String) (f : id3v2.Frame) (fs : List (String × id3v2.Frame))
    (p : String × id3v2.Frame) (h : p ∈ id3v2.seqAdd id f fs) : p ∈ fs ∨ p = (id, f) := by
  induction fs with
  | nil => simpa [id3v2.seqAdd] using h
  | cons q rest ih =>
    obtain ⟨i, g⟩ := q
    simp only [id3v2.seqAdd] at h
    split at h
    · rcases List.mem_cons.1 h with h | h
      · exact Or.inr h
      · exact Or.inl (List.mem_cons_of_mem _ h)
    · rcases List.mem_cons.1 h with h | h
      · exact Or.inl (h ▸ List.mem_cons_self _ _)
      · rcases ih h with h | h
        · exact Or.inl (List.mem_cons_of_mem _ h)
        · exact Or.inr h

theorem id3v2.seqAdd_keeps (id : String) (f : id3v2.Frame) (fs : List (String × id3v2.Frame))
    (p : String × id3v2.Frame) (h : p ∈ fs) (hid : p.1 ≠ id) : p ∈ id3v2.seqAdd id f fs := by
  induction fs with
  | nil => simp at h
  | cons q rest ih =>
    obtain ⟨i, g⟩ := q
    simp only [id3v2.seqAdd]
    split
    · rename_i hc
      rcases List.mem_cons.1 h with h | h
      · exact absurd (by rw [h]; exact hc.1) hid
      · exact List.mem_cons_of_mem _ h
    · rcases List.mem_cons.1 h with h | h
      · exact h ▸ List.mem_cons_self _ _
      · exact List.mem_cons_of_mem _ (ih h)

theorem id3v2.seqAdd_filter_ne (id id2 : String) (f : id3v2.Frame)
    (fs : List (String × id3v2.Frame)) (h : id ≠ id2) :
    (id3v2.seqAdd id f fs).filter (fun p => p.1 = id2) = fs.filter (fun p => p.1 = id2) := by
  induction fs with
  | nil => simp [id3v2.seqAdd, h]
  | cons q rest ih =>
    obtain ⟨i, g⟩ := q
    simp only [id3v2.seqAdd]
    split
    · rename_i hc
      have : ¬ i = id2 := by rw [hc.1]; exact h
      simp [List.filter_cons, h, this]
    · simp only [List.filter_cons, ih]

/-- Every frame of a tag after `AddFrame` was there before or is the new one. -/
theorem id3v2.Tag.mem_AddFrame (lib : id3v2.Lib) (tag : id3v2.Tag) (id : String)
    (f : id3v2.Frame) (p : String × id3v2.Frame) (h : p ∈ (tag.AddFrame lib id f).frames) :
    p ∈ tag.frames ∨ p = (id, f) := by
  unfold id3v2.Tag.AddFrame at h
  split at h
  · exact Or.inl h
  · split at h
    · exact id3v2.mem_seqAdd id f _ p h
    · simp only [List.mem_append, List.mem_filter, List.mem_singleton] at h
      rcases h with h | h
      · exact Or.inl h.1
      · exact Or.inr h

/-- The frames under other frame IDs stay in the tag under `AddFrame`. -/
theorem id3v2.Tag.AddFrame_keeps (lib : id3v2.Lib) (tag : id3v2.Tag) (id : String)
    (f : id3v2.Frame) (p : String × id3v2.Frame) (h : p ∈ tag.frames) (hid : p.1 ≠ id) :
    p ∈ (tag.AddFrame lib id f).frames := by
  unfold id3v2.Tag.AddFrame
  split
  · exact h
  · split
    · exact id3v2.seqAdd_keeps id f _ p h hid
    · simp only [List.mem_append, List.mem_filter, List.mem_singleton]
      exact Or.inl ⟨h, by simpa using hid⟩

/-- The frames under another frame ID are the same after `AddFrame`. -/
theorem id3v2.Tag.framesOf_AddFrame_ne (lib : id3v2.Lib) (tag : id3v2.Tag) (id id2 : String)
    (f : id3v2.Frame) (h : id ≠ id2) : framesOf (tag.AddFrame lib id f) id2 = framesOf tag id2 := by
  unfold id3v2.Tag.AddFrame framesOf
  split
  · rfl
  · split
    · exact id3v2.seqAdd_filter_ne id id2 f _ h
    · simp only [List.filter_append, List.filter_filter]
      have h1 : List.filter (fun p => decide (p.1 = id2)) [(id, f)] = [] := by
        simp [List.filter_cons, h]
      rw [h1, List.append_nil]
      apply List.filter_congr
      intro p _
      by_cases hp : p.1 = id2
      · have : ¬ id2 = id := fun e => h e.symm
        simp [hp, this]
      · simp [hp]

/-- A frame ID that holds a single frame holds the new frame after `AddFrame`. -/
theorem id3v2.Tag.framesOf_AddFrame_self (lib : id3v2.Lib) (tag : id3v2.Tag) (id : String)
    (f : id3v2.Frame) (hne : id ≠ "") (hseq : lib.mustFrameBeInSequence id = false) :
    framesOf (tag.AddFrame lib id f) id = [(id, f)] := by
  unfold id3v2.Tag.AddFrame framesOf
  simp only [if_neg hne, hseq, Bool.false_eq_true, if_false]
  simp only [List.filter_append, List.filter_filter]
  have h1 : List.filter (fun p => decide (p.1 = id)) [(id, f)] = [(id, f)] := by
    simp [List.filter_cons]
  rw [h1]
  have h2 : List.filter (fun p : String × id3v2.Frame => decide (p.1 = id) && decide (p.1 ≠ id))
      tag.frames = [] := by
    apply List.filter_eq_nil_iff.2
    intro p _
    by_cases hp : p.1 = id <;> simp [hp]
  rw [h2]
  rfl

theorem mem_addAll (lib : id3v2.Lib) (fs : List (String × id3v2.Frame)) (tag : id3v2.Tag)
    (p : String × id3v2.Frame) (h : p ∈ (addAll lib tag fs).frames) : p ∈ tag.frames ∨ p ∈ fs := by
  induction fs generalizing tag with
  | nil => exact Or.inl h
  | cons q rest ih =>
    rcases ih (tag.AddFrame lib q.1 q.2) h with h | h
    · rcases id3v2.Tag.mem_AddFrame lib tag q.1 q.2 p h with h | h
      · exact Or.inl h
      · exact Or.inr (h ▸ List.mem_cons_self _ _)
    · exact Or.inr (List.mem_cons_of_mem _ h)

theorem addAll_keeps (lib : id3v2.Lib) (fs : List (String × id3v2.Frame)) (tag : id3v2.Tag)
    (p : String × id3v2.Frame) (h : p ∈ tag.frames) (hid : p.1 ∉ fs.map Prod.fst) :
    p ∈ (addAll lib tag fs).frames := by
  induction fs generalizing tag with
  | nil => exact h
  | cons q rest ih =>
    simp only [List.map_cons, List.mem_cons, not_or] at hid
    exact ih (tag.AddFrame lib q.1 q.2) (id3v2.Tag.AddFrame_keeps lib tag q.1 q.2 p h hid.1) hid.2

theorem framesOf_addAll_ne (lib : id3v2.Lib) (fs : List (String × id3v2.Frame)) (tag : id3v2.Tag)
    (id : String) (hid : id ∉ fs.map Prod.fst) :
    framesOf (addAll lib tag fs) id = framesOf tag id := by
  induction fs generalizing tag with
  | nil => rfl
  | cons q rest ih =>
    simp only [List.map_cons, List.mem_cons, not_or] at hid
    have h1 := ih (tag.AddFrame lib q.1 q.2) hid.2
    have h2 := id3v2.Tag.framesOf_AddFrame_ne lib tag q.1 id q.2 (fun e => hid.1 e.symm)
    simpa [addAll, h2] using h1

/-- A frame ID that holds a single frame and is written once by a run of
`AddFrame` calls holds exactly the frame written. -/
theorem framesOf_addAll_own (lib : id3v2.Lib) (fs : List (String × id3v2.Frame)) (tag : id3v2.Tag)
    (id : String) (f : id3v2.Frame) (hne : id ≠ "") (hseq : lib.mustFrameBeInSequence id = false)
    (hcount : (fs.map Prod.fst).count id = 1) (hmem : (id, f) ∈ fs) :
    framesOf (addAll lib tag fs) id = [(id, f)] := by
  induction fs generalizing tag with
  | nil => simp at hmem
  | cons q rest ih =>
    obtain ⟨i, g⟩ := q
    by_cases hi : i = id
    · subst hi
      have hrest : i ∉ rest.map Prod.fst := by
        intro hin
        have := List.count_pos_iff.2 hin
        simp [List.count_cons] at hcount
        omega
      have hg : g = f := by
        rcases List.mem_cons.1 hmem with h | h
        · exact (Prod.mk.inj h).2.symm
        · exact absurd (List.mem_map_of_mem Prod.fst h) hrest
      subst hg
      have h1 := framesOf_addAll_ne lib rest (tag.AddFrame lib i g) i hrest
      have h2 := id3v2.Tag.framesOf_AddFrame_self lib tag i g hne hseq
      simpa [addAll, h2] using h1
    · have hc : (rest.map Prod.fst).count id = 1 := by
        simpa [List.count_cons, hi] using hcount
      have hm : (id, f) ∈ rest := by
        rcases List.mem_cons.1 hmem with h | h
        · exact absurd (Prod.mk.inj h).1.symm hi
        · exact h
      exact ih (tag.AddFrame lib i g) hc hm

theorem fieldFrames_ids (lib : id3v2.Lib) (info : Info) :
    (fieldFrames lib info).map Prod.fst = fieldIDs lib := rfl

/-! ## What `WriteTags` saves -/

/-- Every tag `WriteTags` hands to `Save` is the tag in memory at line 262,
set to version 4, with the fields added. -/
theorem WriteTags_saved (lib : id3v2.Lib) (env : Env) (info : Info) (filename : String)
    (reset : Bool) (w : World) (tag : id3v2.Tag) (t : id3v2.Tag) (e : Option String)
    (name : String) (hopen : env.Open w.tick filename = .ok tag)
    (hsave : Event.save name t e ∈ (WriteTags lib env info filename reset w).trace) :
    t = addAll lib { savedBase lib env info reset w.tick tag with version := 4 }
      (fieldFrames lib info) := by
  by_cases hurl : info.CoverURL = ""
  · cases reset <;>
      simp [WriteTags, M.bind, emit, ask, tagCall, hopen, hurl, writeFields_run] at hsave
    all_goals
      obtain ⟨-, ht, -⟩ := hsave
      rw [ht]
      simp [savedBase, fetchedCover, hurl, id3v2.Tag.apply]
  · cases hget : env.Get (w.tick + 1) info.CoverURL <;> cases reset <;>
      simp [WriteTags, M.bind, emit, ask, tagCall, hopen, hurl, hget, writeFields_run] at hsave
    all_goals
      obtain ⟨-, ht, -⟩ := hsave
      rw [ht]
      simp [savedBase, fetchedCover, hurl, hget, id3v2.Tag.apply, id3v2.Tag.CommonID]

theorem ownSlot_frames (lib : id3v2.Lib) (info : Info) (tag : id3v2.Tag) (d : String)
    (f : id3v2.Frame) (hown : ownSlot lib d = true)
    (hmem : (lib.CommonID 4 d, f) ∈ fieldFrames lib info) :
    framesOf (addAll lib tag (fieldFrames lib info)) (lib.CommonID 4 d) =
      [(lib.CommonID 4 d, f)] := by
  simp only [ownSlot, Bool.and_eq_true, bne_iff_ne, ne_eq, Bool.not_eq_true', beq_iff_eq] at hown
  exact framesOf_addAll_own lib (fieldFrames lib info) tag _ f hown.1.1 hown.1.2
    (by rw [fieldFrames_ids]; exact hown.2) hmem

/-- C6: take any tag that `WriteTags` hands to `Save`, whatever frames the
tag on disk had. With `reset` set, every frame of the saved tag is one the
pipeline itself set in this run (the cover, if it was fetched, or one of the
fields). Without `reset`, every frame of the tag on disk whose frame ID is
not one the pipeline writes is still in the saved tag. In both cases, for a
library that keeps title, album and artist as single frames of their own, the
saved tag holds under each of these three frame IDs exactly one frame, with
the value of the candidate. -/
theorem WriteTags_frames (lib : id3v2.Lib) (env : Env) (info : Info) (filename : String)
    (reset : Bool) (w : World) (tag t : id3v2.Tag) (e : Option String)
    (hopen : env.Open w.tick filename = .ok tag)
    (hsave : Event.save filename t e ∈ (WriteTags lib env info filename reset w).trace) :
    (reset = true →
        ∀ p ∈ t.frames, p ∈ pipelineFrames lib info tag.version (fetchedCover env info w.tick)) ∧
      (reset = false →
        ∀ p ∈ tag.frames,
          p.1 ∉ (pipelineFrames lib info tag.version (fetchedCover env info w.tick)).map Prod.fst →
          p ∈ t.frames) ∧
      (keepsNames lib = true →
        framesOf t (lib.CommonID 4 "Title") =
          [(lib.CommonID 4 "Title", .text ⟨lib.DefaultEncoding 4, info.TrackTitle⟩)] ∧
        framesOf t (lib.CommonID 4 "Album/Movie/Show title") =
          [(lib.CommonID 4 "Album/Movie/Show title",
            .text ⟨lib.DefaultEncoding 4, info.AlbumTitle⟩)] ∧
        framesOf t (lib.CommonID 4 "Artist") =
          [(lib.CommonID 4 "Artist",
            .text ⟨lib.DefaultEncoding 4, strings.Join info.ArtistNames ", "⟩)]) := by
  have ht := WriteTags_saved lib env info filename reset w tag t e filename hopen hsave
  subst ht
  refine ⟨fun hr p hp => ?_, fun hr p hp hid => ?_, fun hk => ?_⟩
  · subst hr
    rcases mem_addAll lib _ _ p hp with h | h
    · cases hc : fetchedCover env info w.tick with
      | none => simp [savedBase, hc, id3v2.Tag.apply] at h
      | some buf =>
        simp only [savedBase, hc, id3v2.Tag.apply, if_true] at h
        rcases id3v2.Tag.mem_AddFrame lib _ _ _ p h with h | h
        · simp at h
        · simp [pipelineFrames, h, id3v2.Tag.CommonID]
    · cases hc : fetchedCover env info w.tick <;> simp [pipelineFrames, h]
  · subst hr
    cases hc : fetchedCover env info w.tick with
    | none =>
      rw [hc] at hid
      apply addAll_keeps lib _ _ p _ hid
      simpa [savedBase, hc, id3v2.Tag.apply] using hp
    | some buf =>
      rw [hc] at hid
      simp only [pipelineFrames, List.map_cons, List.mem_cons, not_or] at hid
      apply addAll_keeps lib _ _ p _ hid.2
      simp only [savedBase, hc, id3v2.Tag.apply, id3v2.Tag.CommonID]
      exact id3v2.Tag.AddFrame_keeps lib _ _ _ p (by simpa using hp) hid.1
  · simp only [keepsNames, Bool.and_eq_true] at hk
    exact ⟨ownSlot_frames lib info _ "Title" _ hk.1.1 (by simp [fieldFrames]),
      ownSlot_frames lib info _ "Album/Movie/Show title" _ hk.1.2 (by simp [fieldFrames]),
      ownSlot_frames lib info _ "Artist" _ hk.2 (by simp [fieldFrames])⟩

/-- C6, at a concrete input: in scenario `fine`, without a reset, the tag on
disk has an old title and a `TBPM` frame; the saved tag keeps the `TBPM` frame
and holds the title of the candidate. -/
theorem WriteTags_frames_witness :
    Scenario.fine.Open 0 "music/a.mp3" = .ok Scenario.oldTag ∧
      Event.save "music/a.mp3" Scenario.newTag none ∈
        (WriteTags id3v2.v24 Scenario.fine Scenario.first "music/a.mp3" false ⟨0, []⟩).trace ∧
      (∀ p ∈ Scenario.oldTag.frames,
        p.1 ∉ (pipelineFrames id3v2.v24 Scenario.first Scenario.oldTag.version
          (fetchedCover Scenario.fine Scenario.first 0)).map Prod.fst →
        p ∈ Scenario.newTag.frames) ∧
      framesOf Scenario.newTag "TIT2" = [("TIT2", .text ⟨.UTF8, "Bohemian Rhapsody"⟩)] :=
  ⟨rfl, by decide,
    (WriteTags_frames id3v2.v24 Scenario.fine Scenario.first "music/a.mp3" false ⟨0, []⟩
      Scenario.oldTag Scenario.newTag none rfl (by decide)).2.1 rfl,
    ((WriteTags_frames id3v2.v24 Scenario.fine Scenario.first "music/a.mp3" false ⟨0, []⟩
      Scenario.oldTag Scenario.newTag none rfl (by decide)).2.2 (by decide)).1⟩

/-! ## Traces of the parts of `DoOne` -/

/-- A property of all events of both parts of a sequence holds of all events
of the sequence. -/
theorem M.all_bind {α β : Type} (P : Event → Prop) (x : M α) (f : α → M β) (w : World)
    (hx : ∀ e ∈ (x w).trace, P e) (hf : ∀ a w2, ∀ e ∈ (f a w2).trace, P e) :
    ∀ e ∈ (M.bind x f w).trace, P e := by
  intro e he
  rcases (M.mem_trace_bind x f w e).1 he with h | ⟨a, -, h⟩
  · exact hx e h
  · exact hf a _ e h

/-- When the first part of a sequence never reads the quit signal, a quit
signal in the sequence is one of the second part, whose outcome is that of
the sequence. -/
theorem M.quit_bind {α β : Type} (x : M α) (f : α → M β) (w : World) (good : Outcome β)
    (hx : ∀ e ∈ (x w).trace, e.isQuit = false)
    (hf : ∀ a, (x w).out = .ret a →
      ∀ e ∈ (f a (x w).world).trace, e.isQuit = true → (f a (x w).world).out = good) :
    ∀ e ∈ (M.bind x f w).trace, e.isQuit = true → (M.bind x f w).out = good := by
  intro e he hq
  rcases (M.mem_trace_bind x f w e).1 he with h | ⟨a, ha, h⟩
  · rw [hx e h] at hq
    exact absurd hq (by decide)
  · rw [M.bind_ret x f w a ha]
    exact hf a ha e h hq

theorem readLine_bind {β : Type} (p : Prompt) (f : String → M β) (w : World) :
    M.bind (readLine p) f w =
      ⟨(f (w.stdin.headD "") { w with stdin := w.stdin.tail }).out,
        (f (w.stdin.headD "") { w with stdin := w.stdin.tail }).world,
        .read p (w.stdin.headD "") ::
          (f (w.stdin.headD "") { w with stdin := w.stdin.tail }).trace⟩ := rfl

theorem say_quiet (m : Msg) (w : World) :
    ∀ e ∈ (say m w).trace, e.isWrite = false ∧ e.isQuit = false := by
  simp [say, emit, Event.isWrite, Event.isQuit]

theorem tracksLoop_quiet (env : Env) (tracks : List spotify.FullTrack) (i : Nat) (infos : List Info)
    (w : World) :
    ∀ e ∈ (tracksLoop env i tracks infos w).trace, e.isWrite = false ∧ e.isQuit = false := by
  induction tracks generalizing i infos w with
  | nil => simp [tracksLoop]
  | cons track rest ih =>
    simp only [tracksLoop, M.bind_eq]
    apply M.all_bind
    · simp [ask, Event.isWrite, Event.isQuit]
    · intro a w2
      cases a with
      | error err => exact ih _ _ _
      | ok album =>
        cases h : album.Images with
        | nil => simp [h, panicWith]
        | cons image more =>
          simp only [h]
          exact ih _ _ _

theorem SearchTracks_quiet (env : Env) (term : String) (w : World) :
    ∀ e ∈ (SearchTracks env term w).trace, e.isWrite = false ∧ e.isQuit = false := by
  simp only [SearchTracks, M.bind_eq]
  apply M.all_bind
  · simp [ask, Event.isWrite, Event.isQuit]
  · intro a w2
    cases a with
    | error err => simp
    | ok tracks =>
      apply M.all_bind
      · exact tracksLoop_quiet env tracks 0 [] w2
      · simp

/-- The search loop writes nothing. -/
theorem searchLoop_no_write (env : Env) (fuel : Nat) (search : String) (w : World) :
    ∀ e ∈ (searchLoop env fuel search w).trace, e.isWrite = false := by
  induction fuel generalizing search w with
  | zero => simp [searchLoop, outOfFuel]
  | succ fuel ih =>
    simp only [searchLoop, M.bind_eq]
    apply M.all_bind
    · exact fun e he => (say_quiet _ w e he).1
    · intro _ w2
      apply M.all_bind
      · exact fun e he => (SearchTracks_quiet env search w2 e he).1
      · intro res w3
        cases res with
        | error err => simp
        | ok infos =>
          by_cases hlen : infos.length = 0
          · simp only [hlen, if_true]
            apply M.all_bind
            · exact fun e he => (say_quiet _ w3 e he).1
            · intro _ w4
              apply M.all_bind
              · simp [readLine, Event.isWrite]
              · intro choice w5
                by_cases hq : choice = "q\n"
                · simp [hq]
                · simp only [hq, if_false]
                  exact ih _ _
          · simp [hlen]

/-- Once the search loop reads the quit signal it returns from `DoOne`
without an error. -/
theorem searchLoop_quit (env : Env) (fuel : Nat) (search : String) (w : World) :
    ∀ e ∈ (searchLoop env fuel search w).trace, e.isQuit = true →
      (searchLoop env fuel search w).out = .ret (.done none) := by
  induction fuel generalizing search w with
  | zero => simp [searchLoop, outOfFuel]
  | succ fuel ih =>
    simp only [searchLoop, M.bind_eq]
    apply M.quit_bind
    · exact fun e he => (say_quiet _ w e he).2
    · intro _ _
      apply M.quit_bind
      · exact fun e he => (SearchTracks_quiet env search _ e he).2
      · intro res _
        cases res with
        | error err => simp
        | ok infos =>
          by_cases hlen : infos.length = 0
          · simp only [hlen, if_true]
            apply M.quit_bind
            · exact fun e he => (say_quiet _ _ e he).2
            · intro _ _
              generalize (say Msg.noResults
                (SearchTracks env search (say (Msg.searching search) w).world).world).world = w4
              rw [readLine_bind]
              generalize w4.stdin.headD "" = line
              intro e he hq
              by_cases hline : line = "q\n"
              · simp [hline]
              · simp only [hline, if_false, List.mem_cons] at he ⊢
                rcases he with rfl | he
                · simp [Event.isQuit, hline] at hq
                · exact ih _ _ e he hq
          · simp [hlen]

/-- The selection loop writes nothing. -/
theorem chooseLoop_no_write (infos : List Info) (fuel : Nat) (w : World) :
    ∀ e ∈ (chooseLoop infos fuel w).trace, e.isWrite = false := by
  induction fuel generalizing w with
  | zero => simp [chooseLoop, outOfFuel]
  | succ fuel ih =>
    simp only [chooseLoop, M.bind_eq]
    apply M.all_bind
    · exact fun e he => (say_quiet _ w e he).1
    · intro _ w2
      apply M.all_bind
      · simp [readLine, Event.isWrite]
      · intro choiceStr w3
        by_cases hq : choiceStr = "q\n"
        · simp [hq]
        · simp only [hq, if_false]
          cases pick (strconv.Atoi (strings.TrimSpace choiceStr)).1 infos with
          | some info => simp
          | none =>
            apply M.all_bind
            · exact fun e he => (say_quiet _ w3 e he).1
            · exact fun _ w4 => ih w4

/-- Once the selection loop reads the quit signal it returns from `DoOne`
without an error. -/
theorem chooseLoop_quit (infos : List Info) (fuel : Nat) (w : World) :
    ∀ e ∈ (chooseLoop infos fuel w).trace, e.isQuit = true →
      (chooseLoop infos fuel w).out = .ret (.done none) := by
  induction fuel generalizing w with
  | zero => simp [chooseLoop, outOfFuel]
  | succ fuel ih =>
    simp only [chooseLoop, M.bind_eq]
    apply M.quit_bind
    · exact fun e he => (say_quiet _ w e he).2
    · intro _ _
      generalize (say (Msg.choosePrompt infos.length) w).world = w2
      rw [readLine_bind]
      generalize w2.stdin.headD "" = line
      intro e he hq
      by_cases hline : line = "q\n"
      · simp [hline]
      · simp only [hline, if_false, List.mem_cons] at he ⊢
        rcases he with rfl | he
        · simp [Event.isQuit, hline] at hq
        · cases hp : pick (strconv.Atoi (strings.TrimSpace line)).1 infos with
          | some info => simp [hp] at he
          | none =>
            simp only [hp] at he ⊢
            exact M.quit_bind _ _ _ _ (fun e he => (say_quiet _ _ e he).2)
              (fun _ _ => ih _) e he hq

/-- What printing the candidates does. -/
theorem showAll_run (infos : List Info) (w : World) :
    showAll infos w = ⟨.ret (), w, infos.map (fun i => .say (.info i))⟩ := by
  induction infos generalizing w with
  | nil => rfl
  | cons info rest ih => simp [showAll, M.bind, say, emit, ih]

/-- The genre step always returns, and neither writes nor reads the quit
signal. -/
theorem mergeGenres_quiet (info : Info) (opts : Opts) (w : World) :
    (∃ merged, (mergeGenres info opts w).out = .ret merged) ∧
      ∀ e ∈ (mergeGenres info opts w).trace, e.isWrite = false ∧ e.isQuit = false := by
  unfold mergeGenres
  by_cases h1 : info.Genres.length = 0
  · by_cases h2 : opts.Genres.length = 0
    · simp [h1, h2, M.bind, say, emit, readLine, Event.isWrite, Event.isQuit]
    · simp [h1, h2]
  · simp [h1]

/-- The events of `WriteTags` are all events of writing. -/
theorem WriteTags_all_write (lib : id3v2.Lib) (env : Env) (info : Info) (filename : String)
    (reset : Bool) (w : World) :
    ∀ e ∈ (WriteTags lib env info filename reset w).trace,
      e.isWrite = true ∧ e.isQuit = false ∧ e.isRename = false := by
  have hf : ∀ tag w2, ∀ e ∈ (writeFields lib env info filename tag w2).trace,
      e.isWrite = true ∧ e.isQuit = false ∧ e.isRename = false := by
    intro tag w2 e he
    rw [writeFields_run] at he
    simp only [List.mem_append, List.mem_map, List.mem_singleton] at he
    rcases he with ⟨op, -, rfl⟩ | rfl <;> simp [Event.isWrite, Event.isQuit, Event.isRename]
  cases reset
  all_goals
    simp only [WriteTags, M.bind_eq]
    apply M.all_bind
    · simp [emit, Event.isWrite, Event.isQuit, Event.isRename]
    · intro _ w2
      apply M.all_bind
      · simp [ask, Event.isWrite, Event.isQuit, Event.isRename]
      · intro res w3
        cases res with
        | error err => simp [panicWith]
        | ok tag =>
          simp only [Bool.false_eq_true, if_false, if_true]
          apply M.all_bind
          · simp [tagCall, Event.isWrite, Event.isQuit, Event.isRename]
          · intro tag2 w4
            by_cases hurl : info.CoverURL = ""
            · simp only [hurl, ne_eq, not_true_eq_false, if_false]
              exact hf _ _
            · simp only [hurl, ne_eq, not_false_eq_true, if_true]
              apply M.all_bind
              · simp [ask, Event.isWrite, Event.isQuit, Event.isRename]
              · intro reply w5
                cases reply with
                | getFailed err => simp
                | readFailed err => simp
                | body buf =>
                  apply M.all_bind
                  · simp [tagCall, Event.isWrite, Event.isQuit, Event.isRename]
                  · exact fun _ _ => hf _ _

/-- The end of `DoOne` never reads the quit signal. -/
theorem writeAndRename_no_quit (lib : id3v2.Lib) (env : Env) (info : Info) (filename : String)
    (opts : Opts) (w : World) :
    ∀ e ∈ (writeAndRename lib env info filename opts w).trace, e.isQuit = false := by
  simp only [writeAndRename, M.bind_eq]
  apply M.all_bind
  · exact fun e he => (WriteTags_all_write lib env info filename opts.Reset w e he).2.1
  · intro res w2
    cases res with
    | some err => simp
    | none =>
      cases opts.Rename with
      | false => simp
      | true =>
        simp only [if_true]
        apply M.all_bind
        · simp [osRename, Event.isQuit]
        · intro r w3
          cases r with
          | some err => simp [M.bind, say, emit, Event.isQuit]
          | none => simp

/-! ## `DoOne`: the quit signal -/

/-- C4: if in a run of `DoOne` the operator gives the quit signal, at the
prompt for a new search term or at the selection prompt, then `DoOne` returns
without an error, and nothing in the run belongs to the writing of a file:
`WriteTags` is not called, no tag is opened, changed or saved, no cover is
fetched and no file is renamed. -/
theorem DoOne_quit (lib : id3v2.Lib) (env : Env) (fuel : Nat) (filename : String) (opts : Opts)
    (w : World) (e : Event) (he : e ∈ (DoOne lib env fuel filename opts w).trace)
    (hq : e.isQuit = true) :
    (DoOne lib env fuel filename opts w).out = .ret none ∧
      ∀ x ∈ (DoOne lib env fuel filename opts w).trace, x.isWrite = false := by
  have h1q := searchLoop_quit env fuel
    (if opts.Term = "" then TermFromFilename filename else opts.Term) w
  have h1w := searchLoop_no_write env fuel
    (if opts.Term = "" then TermFromFilename filename else opts.Term) w
  cases h1 : (searchLoop env fuel (if opts.Term = "" then TermFromFilename filename
      else opts.Term) w).out with
  | panic msg =>
    simp only [DoOne, M.bind_eq, M.bind, emit, say, h1, List.singleton_append, List.mem_cons]
      at he ⊢
    rcases he with rfl | rfl | he
    · simp [Event.isQuit] at hq
    · simp [Event.isQuit] at hq
    · rw [h1q e he hq] at h1
      cases h1
  | outOfFuel =>
    simp only [DoOne, M.bind_eq, M.bind, emit, say, h1, List.singleton_append, List.mem_cons]
      at he ⊢
    rcases he with rfl | rfl | he
    · simp [Event.isQuit] at hq
    · simp [Event.isQuit] at hq
    · rw [h1q e he hq] at h1
      cases h1
  | ret step =>
    cases step with
    | done r =>
      simp only [DoOne, M.bind_eq, M.bind, emit, say, h1, List.singleton_append, List.mem_cons,
        M.pure_eq, M.pure_run, List.append_nil] at he ⊢
      rcases he with rfl | rfl | he
      · simp [Event.isQuit] at hq
      · simp [Event.isQuit] at hq
      · rw [h1q e he hq] at h1
        cases h1
        refine ⟨rfl, ?_⟩
        intro x hx
        rcases hx with rfl | rfl | hx
        · rfl
        · rfl
        · exact h1w x hx
    | next infos =>
      have h2q := chooseLoop_quit infos fuel (searchLoop env fuel
        (if opts.Term = "" then TermFromFilename filename else opts.Term) w).world
      have h2w := chooseLoop_no_write infos fuel (searchLoop env fuel
        (if opts.Term = "" then TermFromFilename filename else opts.Term) w).world
      have hshow : ∀ x ∈ infos.map (fun i => Event.say (.info i)),
          x.isWrite = false ∧ x.isQuit = false := by
        intro x hx
        simp only [List.mem_map] at hx
        obtain ⟨i, -, rfl⟩ := hx
        exact ⟨rfl, rfl⟩
      cases h2 : (chooseLoop infos fuel (searchLoop env fuel
          (if opts.Term = "" then TermFromFilename filename else opts.Term) w).world).out with
      | panic msg =>
        simp only [DoOne, M.bind_eq, M.bind, emit, say, h1, h2, showAll_run,
          List.singleton_append, List.mem_cons, List.mem_append] at he ⊢
        rcases he with rfl | rfl | he | he | he
        · simp [Event.isQuit] at hq
        · simp [Event.isQuit] at hq
        · rw [h1q e he hq] at h1
          cases h1
        · rw [(hshow e he).2] at hq
          cases hq
        · rw [h2q e he hq] at h2
          cases h2
      | outOfFuel =>
        simp only [DoOne, M.bind_eq, M.bind, emit, say, h1, h2, showAll_run,
          List.singleton_append, List.mem_cons, List.mem_append] at he ⊢
        rcases he with rfl | rfl | he | he | he
        · simp [Event.isQuit] at hq
        · simp [Event.isQuit] at hq
        · rw [h1q e he hq] at h1
          cases h1
        · rw [(hshow e he).2] at hq
          cases hq
        · rw [h2q e he hq] at h2
          cases h2
      | ret step2 =>
        cases step2 with
        | done r =>
          simp only [DoOne, M.bind_eq, M.bind, emit, say, h1, h2, showAll_run,
            List.singleton_append, List.mem_cons, List.mem_append, M.pure_eq, M.pure_run,
            List.append_nil] at he ⊢
          rcases he with rfl | rfl | he | he | he
          · simp [Event.isQuit] at hq
          · simp [Event.isQuit] at hq
          · rw [h1q e he hq] at h1
            cases h1
          · rw [(hshow e he).2] at hq
            cases hq
          · rw [h2q e he hq] at h2
            cases h2
            refine ⟨rfl, ?_⟩
            intro x hx
            rcases hx with rfl | rfl | hx | hx | hx
            · rfl
            · rfl
            · exact h1w x hx
            · exact (hshow x hx).1
            · exact h2w x hx
        | next info =>
          obtain ⟨⟨merged, hm⟩, hmq⟩ := mergeGenres_quiet info opts (chooseLoop infos fuel
            (searchLoop env fuel
              (if opts.Term = "" then TermFromFilename filename else opts.Term) w).world).world
          have hwq := writeAndRename_no_quit lib env merged filename opts
            (mergeGenres info opts (chooseLoop infos fuel (searchLoop env fuel
              (if opts.Term = "" then TermFromFilename filename else opts.Term) w).world).world).world
          simp only [DoOne, M.bind_eq, M.bind, emit, say, h1, h2, hm, showAll_run,
            List.singleton_append, List.mem_cons, List.mem_append] at he ⊢
          rcases he with rfl | rfl | he | he | he | he | he
          · simp [Event.isQuit] at hq
          · simp [Event.isQuit] at hq
          · rw [h1q e he hq] at h1
            cases h1
          · rw [(hshow e he).2] at hq
            cases hq
          · rw [h2q e he hq] at h2
            cases h2
          · rw [(hmq e he).2] at hq
            cases hq
          · rw [hwq e he] at hq
            cases hq

/-- C4, at a concrete input: the search finds nothing and the operator
answers `q` at the prompt for a new term; and the search finds a candidate
and the operator answers `q` at the selection prompt. -/
theorem DoOne_quit_witness :
    Event.read .newTerm "q\n" ∈
        (DoOne id3v2.v24 Scenario.nothing 1 "music/a.mp3" Scenario.plain ⟨0, ["q\n"]⟩).trace ∧
      (Event.read .newTerm "q\n").isQuit = true ∧
      ((DoOne id3v2.v24 Scenario.nothing 1 "music/a.mp3" Scenario.plain ⟨0, ["q\n"]⟩).out =
        .ret none ∧
      ∀ x ∈ (DoOne id3v2.v24 Scenario.nothing 1 "music/a.mp3" Scenario.plain ⟨0, ["q\n"]⟩).trace,
        x.isWrite = false) ∧
      Event.read .choose "q\n" ∈
        (DoOne id3v2.v24 Scenario.fine 1 "music/a.mp3" Scenario.plain ⟨0, ["q\n"]⟩).trace ∧
      (Event.read .choose "q\n").isQuit = true ∧
      ((DoOne id3v2.v24 Scenario.fine 1 "music/a.mp3" Scenario.plain ⟨0, ["q\n"]⟩).out =
        .ret none ∧
      ∀ x ∈ (DoOne id3v2.v24 Scenario.fine 1 "music/a.mp3" Scenario.plain ⟨0, ["q\n"]⟩).trace,
        x.isWrite = false) :=
  ⟨by decide, rfl,
    DoOne_quit id3v2.v24 Scenario.nothing 1 "music/a.mp3" Scenario.plain ⟨0, ["q\n"]⟩
      (.read .newTerm "q\n") (by decide) rfl,
    by decide, rfl,
    DoOne_quit id3v2.v24 Scenario.fine 1 "music/a.mp3" Scenario.plain ⟨0, ["q\n"]⟩
      (.read .choose "q\n") (by decide) rfl⟩

/-! ## `path/filepath`: cleaning a path that is already clean -/

theorem strings.splitChars_append (sep : Char) (a b : List Char) :
    strings.splitChars sep (a ++ sep :: b) = strings.splitChars sep a ++ strings.splitChars sep b := by
  unfold strings.splitChars
  suffices h : ∀ acc, strings.splitAux sep acc (a ++ sep :: b) =
      strings.splitAux sep acc a ++ strings.splitAux sep [] b from h []
  induction a with
  | nil => intro acc; simp [strings.splitAux]
  | cons c cs ih =>
    intro acc
    simp only [List.cons_append, strings.splitAux]
    split
    · simpa using ih []
    · exact ih _

theorem strings.splitChars_of_not_mem (sep : Char) (c : List Char) (h : sep ∉ c) :
    strings.splitChars sep c = [c] := by
  unfold strings.splitChars
  suffices hh : ∀ acc, strings.splitAux sep acc c = [acc.reverse ++ c] by simpa using hh []
  induction c with
  | nil => intro acc; simp [strings.splitAux]
  | cons x xs ih =>
    intro acc
    simp only [List.mem_cons, not_or] at h
    have hx : ¬ x = sep := fun e => h.1 e.symm
    rw [strings.splitAux, if_neg hx, ih h.2]
    simp

theorem strings.joinChars_concat (sep : List Char) (l : List (List Char)) (c : List Char)
    (h : l ≠ []) : strings.joinChars sep (l ++ [c]) = strings.joinChars sep l ++ sep ++ c := by
  induction l with
  | nil => exact absurd rfl h
  | cons a rest ih =>
    cases rest with
    | nil => simp [strings.joinChars]
    | cons b more =>
      have := ih (by simp)
      simp only [List.cons_append] at this ⊢
      simp only [strings.joinChars, this]
      simp

theorem strings.splitChars_joinChars (sep : Char) (l : List (List Char)) (h : l ≠ [])
    (hsep : ∀ c ∈ l, sep ∉ c) : strings.splitChars sep (strings.joinChars [sep] l) = l := by
  induction l with
  | nil => exact absurd rfl h
  | cons a rest ih =>
    cases rest with
    | nil => simpa [strings.joinChars] using strings.splitChars_of_not_mem sep a (hsep a (by simp))
    | cons b more =>
      have h1 := ih (by simp) (fun c hc => hsep c (List.mem_cons_of_mem _ hc))
      simp only [strings.joinChars, List.append_assoc, List.singleton_append]
      rw [strings.splitChars_append, h1, strings.splitChars_of_not_mem sep a (hsep a (by simp))]
      rfl

theorem filepath.Normal.elems {r : Bool} {stack : List (List Char)} (h : filepath.Normal r stack) :
    ∀ c ∈ stack, c ≠ [] ∧ '/' ∉ c := by
  induction h with
  | nil => simp
  | push c stack _ hne _ hsep _ ih =>
    intro x hx
    rcases List.mem_cons.1 hx with rfl | hx
    · exact ⟨hne, hsep⟩
    · exact ih x hx

theorem filepath.Normal.tail {r : Bool} {c : List Char} {stack : List (List Char)}
    (h : filepath.Normal r (c :: stack)) : filepath.Normal r stack := by
  cases h with
  | push _ _ h _ _ _ _ => exact h

theorem filepath.Normal.not_rooted {r : Bool} {stack : List (List Char)}
    (h : filepath.Normal r (['.', '.'] :: stack)) : r = false := by
  cases h with
  | push _ _ _ _ _ _ hup => exact (hup rfl).1

/-- Reading an element onto a stack in normal form that continues it in
normal form pushes it. -/
theorem filepath.cleanStep_push (r : Bool) (c : List Char) (stack : List (List Char))
    (h : filepath.Normal r (c :: stack)) : filepath.cleanStep r stack c = c :: stack := by
  cases h with
  | push _ _ hS hne hdot hsep hup =>
    unfold filepath.cleanStep
    rw [if_neg (by simp [hne, hdot])]
    by_cases hc : c = ['.', '.']
    · rw [if_pos hc]
      obtain ⟨hr, hS2⟩ := hup hc
      cases stack with
      | nil => simp [hr]
      | cons top below =>
        have : top = ['.', '.'] := by simpa using hS2
        simp [this]
    · rw [if_neg hc]

/-- Reading an element keeps the stack in normal form. -/
theorem filepath.cleanStep_normal (r : Bool) (c : List Char) (stack : List (List Char))
    (h : filepath.Normal r stack) (hsep : '/' ∉ c) :
    filepath.Normal r (filepath.cleanStep r stack c) := by
  unfold filepath.cleanStep
  by_cases h1 : c = [] ∨ c = ['.']
  · rw [if_pos h1]
    exact h
  · rw [if_neg h1]
    simp only [not_or] at h1
    by_cases hc : c = ['.', '.']
    · rw [if_pos hc]
      cases stack with
      | nil =>
        cases r with
        | true => exact .nil
        | false => exact .push c [] .nil h1.1 h1.2 hsep (fun _ => ⟨rfl, Or.inl rfl⟩)
      | cons top below =>
        by_cases ht : top = ['.', '.']
        · simp only [ht, if_true]
          subst ht
          exact .push c _ h h1.1 h1.2 hsep (fun _ => ⟨h.not_rooted, Or.inr rfl⟩)
        · simp only [ht, if_false]
          exact h.tail
    · rw [if_neg hc]
      exact .push c stack h h1.1 h1.2 hsep (fun e => absurd e hc)

theorem filepath.foldl_normal (r : Bool) (l : List (List Char)) (stack : List (List Char))
    (h : filepath.Normal r stack) (hsep : ∀ c ∈ l, '/' ∉ c) :
    filepath.Normal r (l.foldl (filepath.cleanStep r) stack) := by
  induction l generalizing stack with
  | nil => exact h
  | cons c rest ih =>
    exact ih _ (filepath.cleanStep_normal r c stack h (hsep c (by simp)))
      (fun x hx => hsep x (List.mem_cons_of_mem _ hx))

/-- Reading the elements of a stack in normal form, outermost first, gives
the stack back. -/
theorem filepath.foldl_reverse (r : Bool) (stack : List (List Char))
    (h : filepath.Normal r stack) : stack.reverse.foldl (filepath.cleanStep r) [] = stack := by
  induction h with
  | nil => rfl
  | push c stack hS hne hdot hsep hup ih =>
    rw [List.reverse_cons, List.foldl_append, ih]
    exact filepath.cleanStep_push r c stack (.push c stack hS hne hdot hsep hup)

theorem strings.joinChars_ne_nil (sep : List Char) (l : List (List Char)) (h : l ≠ [])
    (hne : ∀ c ∈ l, c ≠ []) : strings.joinChars sep l ≠ [] := by
  cases l with
  | nil => exact absurd rfl h
  | cons a rest =>
    have ha := hne a (by simp)
    cases rest with
    | nil => simpa [strings.joinChars] using ha
    | cons b more => simp [strings.joinChars, ha]

theorem strings.joinChars_head (sep : List Char) (l : List (List Char)) (a : List Char)
    (ha : a ≠ []) : (strings.joinChars sep (a :: l)).head? = a.head? := by
  cases l with
  | nil => rfl
  | cons b more =>
    cases a with
    | nil => exact absurd rfl ha
    | cons x xs => simp [strings.joinChars]

theorem filepath.render_ne_nil (r : Bool) (stack : List (List Char)) :
    filepath.render r stack ≠ [] := by
  unfold filepath.render
  cases r with
  | true => simp
  | false =>
    by_cases h : strings.joinChars ['/'] stack.reverse = []
    · simp [h]
    · simp [h]

/-- The path written for a stack in normal form starts with a separator
exactly when it is rooted. -/
theorem filepath.render_head (r : Bool) (stack : List (List Char)) (h : filepath.Normal r stack) :
    decide ((filepath.render r stack).head? = some '/') = r := by
  unfold filepath.render
  cases r with
  | true => simp
  | false =>
    by_cases hj : strings.joinChars ['/'] stack.reverse = []
    · simp [hj]
    · simp only [Bool.false_eq_true, if_false, hj, decide_eq_false_iff_not]
      cases hrev : stack.reverse with
      | nil => simp [hrev, strings.joinChars] at hj
      | cons a rest =>
        have hmem : a ∈ stack := by
          have : a ∈ stack.reverse := by rw [hrev]; simp
          simpa using this
        obtain ⟨hane, hasep⟩ := h.elems a hmem
        rw [strings.joinChars_head _ _ _ hane]
        cases a with
        | nil => exact absurd rfl hane
        | cons x xs =>
          simp only [List.head?_cons, Option.some.injEq]
          intro e
          exact hasep (by simp [e])

/-- Cleaning the path written for a stack in normal form reads the stack
back. -/
theorem filepath.foldl_split_render (r : Bool) (stack : List (List Char))
    (h : filepath.Normal r stack) :
    (strings.splitChars '/' (filepath.render r stack)).foldl (filepath.cleanStep r) [] = stack := by
  have hrev : ∀ c ∈ stack.reverse, '/' ∉ c := fun c hc => (h.elems c (by simpa using hc)).2
  have hrevne : ∀ c ∈ stack.reverse, c ≠ [] := fun c hc => (h.elems c (by simpa using hc)).1
  unfold filepath.render
  cases r with
  | true =>
    simp only [if_true]
    have hs := strings.splitChars_append '/' [] (strings.joinChars ['/'] stack.reverse)
    simp only [List.nil_append] at hs
    rw [hs]
    cases hst : stack with
    | nil => decide
    | cons c rest =>
      have hne : stack.reverse ≠ [] := by simp [hst]
      rw [← hst, strings.splitChars_joinChars '/' _ hne hrev, List.foldl_append]
      have : List.foldl (filepath.cleanStep true) [] (strings.splitChars '/' []) = [] := by decide
      rw [this]
      exact filepath.foldl_reverse true stack h
  | false =>
    cases hst : stack with
    | nil => decide
    | cons c rest =>
      have hne : stack.reverse ≠ [] := by simp [hst]
      have hj := strings.joinChars_ne_nil ['/'] _ hne hrevne
      rw [← hst]
      simp only [Bool.false_eq_true, if_false, hj]
      rw [strings.splitChars_joinChars '/' _ hne hrev]
      exact filepath.foldl_reverse false stack h

theorem filepath.cleanChars_eq (path : List Char) :
    filepath.cleanChars path =
      filepath.render (decide (path.head? = some '/'))
        ((strings.splitChars '/' path).foldl
          (filepath.cleanStep (decide (path.head? = some '/'))) []) := by
  unfold filepath.cleanChars filepath.render
  by_cases hp : path.head? = some '/' <;> simp [hp]

/-- `Clean` always writes the path of a stack in normal form. -/
theorem filepath.Clean_normal (path : String) :
    ∃ r stack, filepath.Normal r stack ∧ filepath.Clean path = ⟨filepath.render r stack⟩ := by
  unfold filepath.Clean
  by_cases hp : path = ""
  · exact ⟨false, [], .nil, by simp [hp]; rfl⟩
  · rw [if_neg hp, filepath.cleanChars_eq]
    exact ⟨_, _, filepath.foldl_normal _ _ [] .nil
      (strings.splitAux_no_sep '/' path.data [] (by simp)), rfl⟩

/-- Cleaning a clean path followed by a separator and one more element
appends the element. -/
theorem filepath.cleanChars_render_push (r : Bool) (name : List Char) (stack : List (List Char))
    (h : filepath.Normal r (name :: stack)) :
    filepath.cleanChars (filepath.render r stack ++ '/' :: name) =
      filepath.render r (name :: stack) := by
  have hhead : decide ((filepath.render r stack ++ '/' :: name).head? = some '/') = r := by
    rw [List.head?_append_of_ne_nil _ (filepath.render_ne_nil r stack)]
    exact filepath.render_head r stack h.tail
  rw [filepath.cleanChars_eq, hhead, strings.splitChars_append,
    strings.splitChars_of_not_mem '/' name (h.elems name (by simp)).2, List.foldl_append,
    filepath.foldl_split_render r stack h.tail]
  simp [filepath.cleanStep_push r name stack h]

/-- Cleaning a clean path followed by a separator gives the clean path. -/
theorem filepath.cleanChars_render_slash (r : Bool) (stack : List (List Char))
    (h : filepath.Normal r stack) :
    filepath.cleanChars (filepath.render r stack ++ ['/']) = filepath.render r stack := by
  have hhead : decide ((filepath.render r stack ++ ['/']).head? = some '/') = r := by
    rw [List.head?_append_of_ne_nil _ (filepath.render_ne_nil r stack)]
    exact filepath.render_head r stack h
  rw [filepath.cleanChars_eq, hhead, strings.splitChars_append, List.foldl_append,
    filepath.foldl_split_render r stack h]
  have : strings.splitChars '/' [] = [[]] := rfl
  simp [this, filepath.cleanStep]

/-- The path of a stack with one more element is the path of the stack, a
separator unless that path is empty or the root, and the element. -/
theorem filepath.render_push (r : Bool) (name : List Char) (stack : List (List Char))
    (h : filepath.Normal r (name :: stack)) :
    filepath.render r (name :: stack) =
      (if stack = [] then (if r then ['/'] else []) else filepath.render r stack ++ ['/']) ++ name := by
  have hname := (h.elems name (by simp)).1
  by_cases hs : stack = []
  · subst hs
    cases r <;> simp [filepath.render, strings.joinChars, hname]
  · have hne : stack.reverse ≠ [] := by simpa using hs
    have hrevne : ∀ x ∈ stack.reverse, x ≠ [] :=
      fun x hx => (h.tail.elems x (by simpa using hx)).1
    have hj := strings.joinChars_ne_nil ['/'] _ hne hrevne
    have hcat := strings.joinChars_concat ['/'] stack.reverse name hne
    simp only [filepath.render, List.reverse_cons, hcat, hs, if_false]
    cases r
    · simp [hj]
    · simp

theorem filepath.dirPart_append (a name : List Char) (h : '/' ∉ name) :
    filepath.dirPart (a ++ '/' :: name) = a ++ ['/'] := by
  unfold filepath.dirPart
  have h1 : ∀ c ∈ name.reverse, (fun c : Char => decide (c ≠ '/')) c = true := by
    intro c hc
    have : c ≠ '/' := fun e => h (e ▸ (by simpa using hc))
    simpa using this
  rw [List.reverse_append, List.reverse_cons, List.append_assoc,
    List.dropWhile_append_of_pos h1]
  simp

theorem filepath.dirPart_of_not_mem (name : List Char) (h : '/' ∉ name) :
    filepath.dirPart name = [] := by
  unfold filepath.dirPart
  rw [List.reverse_eq_nil_iff, List.dropWhile_eq_nil_iff]
  intro c hc
  have : c ≠ '/' := fun e => h (e ▸ (by simpa using hc))
  simpa using this

theorem filepath.lastElem_append (a name : List Char) (h : '/' ∉ name) :
    filepath.lastElem (a ++ '/' :: name) = name := by
  unfold filepath.lastElem
  have h1 : ∀ c ∈ name.reverse, (fun c : Char => decide (c ≠ '/')) c = true := by
    intro c hc
    have : c ≠ '/' := fun e => h (e ▸ (by simpa using hc))
    simpa using this
  rw [List.reverse_append, List.reverse_cons, List.append_assoc,
    List.takeWhile_append_of_pos h1]
  simp

theorem filepath.lastElem_of_not_mem (name : List Char) (h : '/' ∉ name) :
    filepath.lastElem name = name := by
  unfold filepath.lastElem
  have h1 : List.takeWhile (fun c : Char => decide (c ≠ '/')) name.reverse = name.reverse := by
    rw [List.takeWhile_eq_self_iff]
    intro c hc
    have : c ≠ '/' := fun e => h (e ▸ (by simpa using hc))
    simpa using this
  rw [h1, List.reverse_reverse]

theorem filepath.Dir_render_push (r : Bool) (name : List Char) (stack : List (List Char))
    (h : filepath.Normal r (name :: stack)) :
    filepath.Dir ⟨filepath.render r (name :: stack)⟩ = ⟨filepath.render r stack⟩ := by
  have hsep := (h.elems name (by simp)).2
  unfold filepath.Dir
  simp only [filepath.render_push r name stack h]
  by_cases hs : stack = []
  · subst hs
    cases r
    · simp only [if_true, Bool.false_eq_true, if_false, List.nil_append,
        filepath.dirPart_of_not_mem name hsep]
      rfl
    · have := filepath.dirPart_append [] name hsep
      simp only [List.nil_append] at this
      simp only [if_true, List.singleton_append, this]
      rfl
  · simp only [hs, if_false, List.append_assoc, List.singleton_append,
      filepath.dirPart_append _ name hsep]
    unfold filepath.Clean
    have hne : (⟨filepath.render r stack ++ ['/']⟩ : String) ≠ "" := by
      intro e
      have := congrArg String.data e
      simp at this
    rw [if_neg hne]
    simp only [filepath.cleanChars_render_slash r stack h.tail]

theorem filepath.Base_render_push (r : Bool) (name : List Char) (stack : List (List Char))
    (h : filepath.Normal r (name :: stack)) :
    filepath.Base ⟨filepath.render r (name :: stack)⟩ = ⟨name⟩ := by
  obtain ⟨hne, hsep⟩ := h.elems name (by simp)
  have hlast : ∀ a : List Char, (a ++ name).reverse.dropWhile (fun c => decide (c = '/')) =
      (a ++ name).reverse := by
    intro a
    cases hn : name.reverse with
    | nil => simp at hn; exact absurd hn hne
    | cons x xs =>
      have hx : x ≠ '/' := by
        intro e
        apply hsep
        have : x ∈ name.reverse := by rw [hn]; simp
        simpa [e] using this
      simp [List.reverse_append, hn, List.dropWhile_cons, hx]
  have hren := filepath.render_push r name stack h
  have hpath : (⟨filepath.render r (name :: stack)⟩ : String) ≠ "" := by
    intro e
    exact filepath.render_ne_nil r (name :: stack) (congrArg String.data e)
  unfold filepath.Base
  rw [if_neg hpath]
  simp only [hren, hlast, List.reverse_reverse]
  have hl : filepath.lastElem ((if stack = [] then (if r = true then ['/'] else [])
      else filepath.render r stack ++ ['/']) ++ name) = name := by
    by_cases hs : stack = []
    · cases r
      · simpa [hs] using filepath.lastElem_of_not_mem name hsep
      · simpa [hs] using filepath.lastElem_append [] name hsep
    · simpa [hs] using filepath.lastElem_append (filepath.render r stack) name hsep
  simp [hl, hne]

theorem filepath.Join_pair (d n : String) (hd : d ≠ "") :
    filepath.Join [d, n] = filepath.Clean ⟨d.data ++ '/' :: n.data⟩ := by
  simp [filepath.Join, hd, strings.Join, strings.joinChars]

/-- Joining the directory of a path with a file name that is a single path
element gives a path whose directory is that directory and whose last element
is the file name. -/
theorem filepath.Join_Dir_Base (filename name : String) (hsep : '/' ∉ name.data)
    (hne : name.data ≠ []) (hdot : name.data ≠ ['.']) (hup : name.data ≠ ['.', '.']) :
    filepath.Dir (filepath.Join [filepath.Dir filename, name]) = filepath.Dir filename ∧
      filepath.Base (filepath.Join [filepath.Dir filename, name]) = name := by
  obtain ⟨r, stack, hN, hd⟩ := filepath.Clean_normal ⟨filepath.dirPart filename.data⟩
  have hdir : filepath.Dir filename = ⟨filepath.render r stack⟩ := hd
  have hpush : filepath.Normal r (name.data :: stack) :=
    .push _ _ hN hne hdot hsep (fun e => absurd e hup)
  have hdne : (⟨filepath.render r stack⟩ : String) ≠ "" := by
    intro e
    exact filepath.render_ne_nil r stack (congrArg String.data e)
  have hjoin : filepath.Join [filepath.Dir filename, name] =
      ⟨filepath.render r (name.data :: stack)⟩ := by
    rw [hdir, filepath.Join_pair _ _ hdne]
    unfold filepath.Clean
    have hne2 : (⟨filepath.render r stack ++ '/' :: name.data⟩ : String) ≠ "" := by
      intro e
      have := congrArg String.data e
      simp at this
    rw [if_neg hne2]
    simp only [filepath.cleanChars_render_push r name.data stack hpush]
  rw [hjoin, hdir]
  exact ⟨filepath.Dir_render_push r _ stack hpush, filepath.Base_render_push r _ stack hpush⟩

theorem filepath.extAux_no_sep (rev acc : List Char) (h : '/' ∉ acc) :
    '/' ∉ filepath.extAux rev acc := by
  induction rev generalizing acc with
  | nil => simp [filepath.extAux]
  | cons c rest ih =>
    unfold filepath.extAux
    by_cases h1 : c = '/'
    · simp [h1]
    · rw [if_neg h1]
      by_cases h2 : c = '.'
      · rw [if_pos h2]
        simp only [List.mem_cons, not_or]
        exact ⟨fun e => h1 e.symm, h⟩
      · rw [if_neg h2]
        apply ih
        simp only [List.mem_cons, not_or]
        exact ⟨fun e => h1 e.symm, h⟩

/-- The extension of a path holds no separator. -/
theorem filepath.Ext_no_sep (path : String) : '/' ∉ (filepath.Ext path).data :=
  filepath.extAux_no_sep _ [] (by simp)

theorem strings.joinChars_no_sep (sep : List Char) (l : List (List Char)) (x : Char)
    (hsep : x ∉ sep) (hl : ∀ c ∈ l, x ∉ c) : x ∉ strings.joinChars sep l := by
  induction l with
  | nil => simp [strings.joinChars]
  | cons a rest ih =>
    cases rest with
    | nil => simpa [strings.joinChars] using hl a (by simp)
    | cons b more =>
      have h1 := ih (fun c hc => hl c (List.mem_cons_of_mem _ hc))
      simp only [strings.joinChars, List.mem_append, not_or]
      exact ⟨⟨hl a (by simp), hsep⟩, h1⟩

/-! ## The rename -/

/-- The file name of the rename holds no separator when no artist name and
not the title holds one, and it is a path element of its own. -/
theorem renameName_element (info : Info) (filename : String)
    (hartists : ∀ a ∈ info.ArtistNames, '/' ∉ a.data) (htitle : '/' ∉ info.TrackTitle.data) :
    '/' ∉ (strings.Join info.ArtistNames ", " ++ " - " ++ info.TrackTitle ++
        filepath.Ext filename).data ∧
      (strings.Join info.ArtistNames ", " ++ " - " ++ info.TrackTitle ++
        filepath.Ext filename).data ≠ [] ∧
      (strings.Join info.ArtistNames ", " ++ " - " ++ info.TrackTitle ++
        filepath.Ext filename).data ≠ ['.'] ∧
      (strings.Join info.ArtistNames ", " ++ " - " ++ info.TrackTitle ++
        filepath.Ext filename).data ≠ ['.', '.'] := by
  have hspace : ' ' ∈ (strings.Join info.ArtistNames ", " ++ " - " ++ info.TrackTitle ++
      filepath.Ext filename).data := by
    simp only [String.data_append, List.mem_append]
    exact Or.inl (Or.inl (Or.inr (by decide)))
  refine ⟨?_, ?_, ?_, ?_⟩
  · simp only [String.data_append, List.mem_append, not_or]
    refine ⟨⟨⟨?_, by decide⟩, htitle⟩, filepath.Ext_no_sep filename⟩
    apply strings.joinChars_no_sep
    · decide
    · intro c hc
      simp only [List.mem_map] at hc
      obtain ⟨a, ha, rfl⟩ := hc
      exact hartists a ha
  · intro e
    rw [e] at hspace
    simp at hspace
  · intro e
    rw [e] at hspace
    simp at hspace
  · intro e
    rw [e] at hspace
    simp at hspace

/-- C9, counterexample: with the rename option set, for the artist `AC/DC`
and the file `music/song.mp3`, `DoOne` renames to a path that is not in the
directory `music` of the original and whose file name is not the one built
from artist, title and extension. -/
theorem DoOne_rename_leaves_directory :
    Event.rename "music/song.mp3" "music/AC/DC - Thunderstruck.mp3" none ∈
        (DoOne id3v2.v24 Scenario.acdc 1 "music/song.mp3" ⟨"", [], false, true⟩
          ⟨0, ["1\n"]⟩).trace ∧
      filepath.Dir "music/song.mp3" = "music" ∧
      filepath.Dir "music/AC/DC - Thunderstruck.mp3" = "music/AC" ∧
      filepath.Base "music/AC/DC - Thunderstruck.mp3" = "DC - Thunderstruck.mp3" := by
  decide

/-- The end of `DoOne` (lines 158 to 171): a rename is attempted only with
the rename option set and after `WriteTags` has returned without an error, it
renames the file itself, and the function then returns without an error
whether or not the rename failed; with the option set and `WriteTags`
successful the rename comes right after the events of `WriteTags`, followed
only by messages. -/
theorem writeAndRename_trace (lib : id3v2.Lib) (env : Env) (info : Info) (filename : String)
    (opts : Opts) (w : World) :
    (∀ old new err,
        Event.rename old new err ∈ (writeAndRename lib env info filename opts w).trace →
        opts.Rename = true ∧ (WriteTags lib env info filename opts.Reset w).out = .ret none ∧
        old = filename ∧
        new = filepath.Join [filepath.Dir filename,
          strings.Join info.ArtistNames ", " ++ " - " ++ info.TrackTitle ++ filepath.Ext filename] ∧
        (writeAndRename lib env info filename opts w).out = .ret none) ∧
      (opts.Rename = true → (WriteTags lib env info filename opts.Reset w).out = .ret none →
        ∃ err rest,
          (writeAndRename lib env info filename opts w).trace =
            (WriteTags lib env info filename opts.Reset w).trace ++
              .rename filename (renameTarget info filename) err :: rest ∧
          (∀ x ∈ rest, ∃ m, x = .say m) ∧
          (writeAndRename lib env info filename opts w).out = .ret none) := by
  have hW := WriteTags_all_write lib env info filename opts.Reset w
  refine ⟨?_, ?_⟩
  · intro old new err hmem
    cases h0 : (WriteTags lib env info filename opts.Reset w).out with
    | panic msg =>
      simp only [writeAndRename, M.bind_eq, M.bind, h0] at hmem
      have := (hW _ hmem).2.2
      simp [Event.isRename] at this
    | outOfFuel =>
      simp only [writeAndRename, M.bind_eq, M.bind, h0] at hmem
      have := (hW _ hmem).2.2
      simp [Event.isRename] at this
    | ret res =>
      cases res with
      | some e =>
        simp only [writeAndRename, M.bind_eq, M.bind, h0, M.pure_eq, M.pure_run,
          List.append_nil] at hmem
        have := (hW _ hmem).2.2
        simp [Event.isRename] at this
      | none =>
        cases hR : opts.Rename with
        | false =>
          simp only [writeAndRename, M.bind_eq, M.bind, h0, hR, M.pure_eq, M.pure_run,
            List.append_nil, Bool.false_eq_true, if_false] at hmem
          have := (hW _ hmem).2.2
          simp [Event.isRename] at this
        | true =>
          cases hren : env.Rename (WriteTags lib env info filename opts.Reset w).world.tick
            filename (renameTarget info filename) with
          | none =>
            simp only [writeAndRename, M.bind_eq, M.bind, h0, hR, osRename, hren, M.pure_eq,
              M.pure_run, List.append_nil, if_true, List.mem_append, List.mem_singleton] at hmem ⊢
            rcases hmem with hmem | hmem
            · have := (hW _ hmem).2.2
              simp [Event.isRename] at this
            · simp only [Event.rename.injEq] at hmem
              exact ⟨trivial, trivial, hmem.1, hmem.2.1, trivial⟩
          | some e =>
            simp only [writeAndRename, M.bind_eq, M.bind, h0, hR, osRename, hren, M.pure_eq,
              M.pure_run, List.append_nil, if_true, List.mem_append, List.mem_singleton, say,
              emit, List.mem_cons, List.singleton_append] at hmem ⊢
            rcases hmem with hmem | hmem | hmem
            · have := (hW _ hmem).2.2
              simp [Event.isRename] at this
            · simp only [Event.rename.injEq] at hmem
              exact ⟨trivial, trivial, hmem.1, hmem.2.1, trivial⟩
            · simp at hmem
  · intro hR h0
    cases hren : env.Rename (WriteTags lib env info filename opts.Reset w).world.tick
      filename (renameTarget info filename) with
    | none =>
      exact ⟨none, [], by simp [writeAndRename, M.bind, h0, hR, osRename, hren],
        by simp, by simp [writeAndRename, M.bind, h0, hR, osRename, hren]⟩
    | some e =>
      exact ⟨some e, [.say (.renameFailed e)],
        by simp [writeAndRename, M.bind, h0, hR, osRename, hren, say, emit],
        by simp, by simp [writeAndRename, M.bind, h0, hR, osRename, hren, say, emit]⟩

/-- Every run of `WriteTags` starts by recording the call. -/
theorem WriteTags_called (lib : id3v2.Lib) (env : Env) (info : Info) (filename : String)
    (reset : Bool) (w : World) :
    Event.writeTags info filename reset ∈ (WriteTags lib env info filename reset w).trace := by
  simp only [WriteTags, M.bind_eq]
  exact (M.mem_trace_bind _ _ _ _).2 (Or.inl (by simp [emit]))

/-- When `WriteTags` returns without an error it has saved the tag, and
`Save` reported no error. -/
theorem WriteTags_success_saved (lib : id3v2.Lib) (env : Env) (info : Info) (filename : String)
    (reset : Bool) (w : World) (h : (WriteTags lib env info filename reset w).out = .ret none) :
    ∃ t, Event.save filename t none ∈ (WriteTags lib env info filename reset w).trace := by
  cases hopen : env.Open w.tick filename with
  | error err => simp [WriteTags, M.bind, emit, ask, hopen, panicWith] at h
  | ok tag =>
    by_cases hurl : info.CoverURL = ""
    · cases reset <;>
        simp only [WriteTags, M.bind_eq, M.bind, emit, ask, tagCall, hopen, hurl,
          writeFields_run, M.pure_eq, M.pure_run, ne_eq, not_true_eq_false, if_false, if_true,
          Bool.false_eq_true, Outcome.ret.injEq] at h ⊢ <;>
        rw [h] <;> simp
    · cases hget : env.Get (w.tick + 1) info.CoverURL <;> cases reset <;>
        simp only [WriteTags, M.bind_eq, M.bind, emit, ask, tagCall, hopen, hurl, hget,
          writeFields_run, M.pure_eq, M.pure_run, ne_eq, not_false_eq_true, if_false, if_true,
          Bool.false_eq_true, Outcome.ret.injEq] at h ⊢
      all_goals first
        | exact absurd h (by simp)
        | (rw [h]; simp)

/-- A run of `DoOne` with an event of writing ends with lines 158 to 171, run
on some candidate, and nothing before them belongs to the writing of a file. -/
theorem DoOne_tail (lib : id3v2.Lib) (env : Env) (fuel : Nat) (filename : String) (opts : Opts)
    (w : World) (e : Event) (he : e ∈ (DoOne lib env fuel filename opts w).trace)
    (hw : e.isWrite = true) :
    ∃ merged w2 pre, (∀ x ∈ pre, x.isWrite = false) ∧
      (DoOne lib env fuel filename opts w).trace =
        pre ++ (writeAndRename lib env merged filename opts w2).trace ∧
      (DoOne lib env fuel filename opts w).out =
        (writeAndRename lib env merged filename opts w2).out := by
  have h1w := searchLoop_no_write env fuel
    (if opts.Term = "" then TermFromFilename filename else opts.Term) w
  have hno : ∀ l : List Event, (∀ x ∈ l, x.isWrite = false) → e ∈ l → False := by
    intro l hl hmem
    rw [hl e hmem] at hw
    cases hw
  cases h1 : (searchLoop env fuel (if opts.Term = "" then TermFromFilename filename
      else opts.Term) w).out with
  | panic msg =>
    simp only [DoOne, M.bind_eq, M.bind, emit, say, h1, List.singleton_append] at he
    exact (hno _ (by
      intro x hx
      rcases List.mem_cons.1 hx with rfl | hx
      · rfl
      · rcases List.mem_cons.1 hx with rfl | hx
        · rfl
        · exact h1w x hx) he).elim
  | outOfFuel =>
    simp only [DoOne, M.bind_eq, M.bind, emit, say, h1, List.singleton_append] at he
    exact (hno _ (by
      intro x hx
      rcases List.mem_cons.1 hx with rfl | hx
      · rfl
      · rcases List.mem_cons.1 hx with rfl | hx
        · rfl
        · exact h1w x hx) he).elim
  | ret step =>
    cases step with
    | done r =>
      simp only [DoOne, M.bind_eq, M.bind, emit, say, h1, List.singleton_append, M.pure_eq,
        M.pure_run, List.append_nil] at he
      exact (hno _ (by
        intro x hx
        rcases List.mem_cons.1 hx with rfl | hx
        · rfl
        · rcases List.mem_cons.1 hx with rfl | hx
          · rfl
          · exact h1w x hx) he).elim
    | next infos =>
      have h2w := chooseLoop_no_write infos fuel (searchLoop env fuel
        (if opts.Term = "" then TermFromFilename filename else opts.Term) w).world
      have hshow : ∀ x ∈ infos.map (fun i => Event.say (.info i)), x.isWrite = false := by
        intro x hx
        simp only [List.mem_map] at hx
        obtain ⟨i, -, rfl⟩ := hx
        rfl
      have hpre : ∀ x ∈ Event.doOne filename :: Event.say (.filename filename) ::
          ((searchLoop env fuel (if opts.Term = "" then TermFromFilename filename
            else opts.Term) w).trace ++ (infos.map (fun i => Event.say (.info i)) ++
            (chooseLoop infos fuel (searchLoop env fuel
              (if opts.Term = "" then TermFromFilename filename else opts.Term) w).world).trace)),
          x.isWrite = false := by
        intro x hx
        simp only [List.mem_cons, List.mem_append] at hx
        rcases hx with rfl | rfl | hx | hx | hx
        · rfl
        · rfl
        · exact h1w x hx
        · exact hshow x hx
        · exact h2w x hx
      cases h2 : (chooseLoop infos fuel (searchLoop env fuel
          (if opts.Term = "" then TermFromFilename filename else opts.Term) w).world).out with
      | panic msg =>
        simp only [DoOne, M.bind_eq, M.bind, emit, say, h1, h2, showAll_run,
          List.singleton_append] at he
        exact (hno _ hpre he).elim
      | outOfFuel =>
        simp only [DoOne, M.bind_eq, M.bind, emit, say, h1, h2, showAll_run,
          List.singleton_append] at he
        exact (hno _ hpre he).elim
      | ret step2 =>
        cases step2 with
        | done r =>
          simp only [DoOne, M.bind_eq, M.bind, emit, say, h1, h2, showAll_run,
            List.singleton_append, M.pure_eq, M.pure_run, List.append_nil] at he
          exact (hno _ hpre he).elim
        | next info =>
          obtain ⟨⟨merged, hm⟩, hmq⟩ := mergeGenres_quiet info opts (chooseLoop infos fuel
            (searchLoop env fuel
              (if opts.Term = "" then TermFromFilename filename else opts.Term) w).world).world
          refine ⟨merged, (mergeGenres info opts (chooseLoop infos fuel (searchLoop env fuel
              (if opts.Term = "" then TermFromFilename filename
                else opts.Term) w).world).world).world,
            Event.doOne filename :: Event.say (.filename filename) ::
            ((searchLoop env fuel (if opts.Term = "" then TermFromFilename filename
              else opts.Term) w).trace ++ (infos.map (fun i => Event.say (.info i)) ++
              ((chooseLoop infos fuel (searchLoop env fuel
                (if opts.Term = "" then TermFromFilename filename else opts.Term) w).world).trace ++
              (mergeGenres info opts (chooseLoop infos fuel (searchLoop env fuel
                (if opts.Term = "" then TermFromFilename filename
                  else opts.Term) w).world).world).trace))), ?_, ?_, ?_⟩
          · intro x hx
            simp only [List.mem_cons, List.mem_append] at hx
            rcases hx with rfl | rfl | hx | hx | hx | hx
            · rfl
            · rfl
            · exact h1w x hx
            · exact hshow x hx
            · exact h2w x hx
            · exact (hmq x hx).1
          · simp only [DoOne, M.bind_eq, M.bind, emit, say, h1, h2, hm, showAll_run,
              List.singleton_append, List.cons_append, List.append_assoc, List.nil_append]
          · simp only [DoOne, M.bind_eq, M.bind, emit, say, h1, h2, hm, showAll_run]

/-- C9, as amended: whenever a run of `DoOne` attempts a rename, the rename
option is set, the file renamed is the file itself, and `DoOne` returns
without an error whether or not the rename failed; the rename comes after a
call of `WriteTags` for the file and a `Save` of its tag that reported no
error, and only messages follow it. The new path is `filepath.Join` of the
directory of the file and the name made of the artist names joined with `, `,
then ` - `, the title and the extension of the file; when no artist name and
not the title holds a path separator, this is the file of that name in the
directory of the original. -/
theorem DoOne_rename (lib : id3v2.Lib) (env : Env) (fuel : Nat) (filename : String) (opts : Opts)
    (w : World) (old new : String) (err : Option String)
    (h : Event.rename old new err ∈ (DoOne lib env fuel filename opts w).trace) :
    opts.Rename = true ∧ old = filename ∧ (DoOne lib env fuel filename opts w).out = .ret none ∧
      ∃ info pre rest,
        (DoOne lib env fuel filename opts w).trace = pre ++ .rename old new err :: rest ∧
        Event.writeTags info filename opts.Reset ∈ pre ∧
        (∃ t, Event.save filename t none ∈ pre) ∧
        (∀ x ∈ rest, ∃ m, x = .say m) ∧
        new = filepath.Join [filepath.Dir filename,
          strings.Join info.ArtistNames ", " ++ " - " ++ info.TrackTitle ++ filepath.Ext filename] ∧
        ((∀ a ∈ info.ArtistNames, '/' ∉ a.data) → '/' ∉ info.TrackTitle.data →
          filepath.Dir new = filepath.Dir filename ∧
          filepath.Base new =
            strings.Join info.ArtistNames ", " ++ " - " ++ info.TrackTitle ++
              filepath.Ext filename) := by
  obtain ⟨merged, w2, pre0, hpre0, htr, hout⟩ :=
    DoOne_tail lib env fuel filename opts w _ h rfl
  have hmem : Event.rename old new err ∈ (writeAndRename lib env merged filename opts w2).trace := by
    rw [htr] at h
    rcases List.mem_append.1 h with h | h
    · have := hpre0 _ h
      simp [Event.isWrite] at this
    · exact h
  obtain ⟨hA, hB⟩ := writeAndRename_trace lib env merged filename opts w2
  obtain ⟨hR, h0, hold, hnew, hret⟩ := hA old new err hmem
  obtain ⟨err2, rest, htr2, hrest, -⟩ := hB hR h0
  have heq : Event.rename old new err = Event.rename filename (renameTarget merged filename) err2 := by
    rw [htr2] at hmem
    rcases List.mem_append.1 hmem with hm | hm
    · have := (WriteTags_all_write lib env merged filename opts.Reset w2 _ hm).2.2
      simp [Event.isRename] at this
    · rcases List.mem_cons.1 hm with hm | hm
      · exact hm
      · obtain ⟨m, hm2⟩ := hrest _ hm
        cases hm2
  refine ⟨hR, hold, by rw [hout]; exact hret, merged,
    pre0 ++ (WriteTags lib env merged filename opts.Reset w2).trace, rest, ?_, ?_, ?_, hrest,
    hnew, ?_⟩
  · rw [htr, htr2, heq, List.append_assoc]
  · exact List.mem_append_right _ (WriteTags_called lib env merged filename opts.Reset w2)
  · obtain ⟨t, ht⟩ := WriteTags_success_saved lib env merged filename opts.Reset w2 h0
    exact ⟨t, List.mem_append_right _ ht⟩
  · intro hartists htitle
    obtain ⟨h1, h2, h3, h4⟩ := renameName_element merged filename hartists htitle
    rw [hnew]
    exact filepath.Join_Dir_Base filename _ h1 h2 h3 h4

/-- C9, at a concrete input: with the rename option set, the file
`music/a.mp3`, tagged as `Bohemian Rhapsody` by `Queen`, is renamed to
`Queen - Bohemian Rhapsody.mp3` in the directory `music`. -/
theorem DoOne_rename_witness :
    Event.rename "music/a.mp3" "music/Queen - Bohemian Rhapsody.mp3" none ∈
        (DoOne id3v2.v24 Scenario.fine 1 "music/a.mp3" ⟨"", ["rock"], false, true⟩
          ⟨0, ["1\n"]⟩).trace ∧
      (DoOne id3v2.v24 Scenario.fine 1 "music/a.mp3" ⟨"", ["rock"], false, true⟩
        ⟨0, ["1\n"]⟩).out = .ret none ∧
      filepath.Dir "music/Queen - Bohemian Rhapsody.mp3" = filepath.Dir "music/a.mp3" ∧
      filepath.Base "music/Queen - Bohemian Rhapsody.mp3" = "Queen - Bohemian Rhapsody.mp3" :=
  ⟨by decide,
    (DoOne_rename id3v2.v24 Scenario.fine 1 "music/a.mp3" ⟨"", ["rock"], false, true⟩ ⟨0, ["1\n"]⟩
      "music/a.mp3" "music/Queen - Bohemian Rhapsody.mp3" none (by decide)).2.2.1,
    by decide, by decide⟩

/-! ## What holds of the ordinals and of the selection -/

/-- The candidates the loop of `SearchTracks` adds carry the slice index plus
one of their track: the ordinals are strictly increasing, greater than the
index the loop started from and at most the number of tracks. -/
theorem tracksLoop_ordinals (env : Env) (tracks : List spotify.FullTrack) (i : Nat)
    (infos : List Info) (w : World) (res : List Info)
    (h : (tracksLoop env i tracks infos w).out = .ret res) :
    ∃ added, res = infos ++ added ∧ (added.map Info.Index).Pairwise (· < ·) ∧
      ∀ x ∈ added, (i : Int) < x.Index ∧ x.Index ≤ (i : Int) + tracks.length := by
  induction tracks generalizing i infos w with
  | nil =>
    simp only [tracksLoop, M.pure_eq, M.pure_run, Outcome.ret.injEq] at h
    exact ⟨[], by simp [h], by simp, by simp⟩
  | cons track rest ih =>
    simp only [tracksLoop, M.bind_eq, M.bind, ask] at h
    cases hal : env.GetAlbum w.tick track.AlbumID with
    | error err =>
      simp only [hal] at h
      obtain ⟨added, h1, h2, h3⟩ := ih (i + 1) infos _ h
      refine ⟨added, h1, h2, fun x hx => ?_⟩
      have := h3 x hx
      simp only [List.length_cons]
      push_cast at this ⊢
      omega
    | ok album =>
      simp only [hal] at h
      cases him : album.Images with
      | nil => simp [him, panicWith] at h
      | cons image more =>
        simp only [him] at h
        obtain ⟨added, h1, h2, h3⟩ := ih (i + 1) _ _ h
        refine ⟨mkInfo i track album image :: added, by simp [h1], ?_, ?_⟩
        · simp only [List.map_cons, List.pairwise_cons]
          refine ⟨?_, h2⟩
          intro y hy
          simp only [List.mem_map] at hy
          obtain ⟨x, hx, rfl⟩ := hy
          have := (h3 x hx).1
          simp only [mkInfo]
          push_cast at this
          omega
        · intro x hx
          simp only [List.length_cons]
          rcases List.mem_cons.1 hx with rfl | hx
          · simp only [mkInfo]
            push_cast
            omega
          · have := h3 x hx
            push_cast at this ⊢
            omega

/-- The ordinals of a list returned by `SearchTracks` are unique and at
least 1 (they are dense only when no candidate was skipped). -/
theorem SearchTracks_ordinals_unique (env : Env) (term : String) (w : World) (infos : List Info)
    (h : (SearchTracks env term w).out = .ret (.ok infos)) :
    (infos.map Info.Index).Nodup ∧ ∀ x ∈ infos, 1 ≤ x.Index := by
  simp only [SearchTracks, M.bind_eq, M.bind, ask] at h
  cases hs : env.Search w.tick term with
  | error err => simp [hs] at h
  | ok tracks =>
    simp only [hs] at h
    cases ht : (tracksLoop env 0 tracks [] { tick := w.tick + 1, stdin := w.stdin }).out with
    | panic msg => simp [M.bind, ht] at h
    | outOfFuel => simp [M.bind, ht] at h
    | ret res =>
      simp only [M.bind, ht, M.pure_eq, M.pure_run, Outcome.ret.injEq, Except.ok.injEq] at h
      subst h
      obtain ⟨added, h1, h2, h3⟩ := tracksLoop_ordinals env tracks 0 [] _ res ht
      simp only [List.nil_append] at h1
      subst h1
      refine ⟨(h2.imp (fun hab => ne_of_lt hab)), fun x hx => ?_⟩
      have := (h3 x hx).1
      push_cast at this
      omega

/-- The inner loop of the selection finds a candidate exactly when one has
the chosen ordinal, and a candidate it finds has that ordinal. -/
theorem pick_spec (choice : Int) (infos : List Info) :
    (∀ x, pick choice infos = some x → x ∈ infos ∧ x.Index = choice) ∧
      (pick choice infos = none ↔ ∀ x ∈ infos, x.Index ≠ choice) := by
  unfold pick
  suffices h : ∀ (found : Option Info),
      (∀ x, infos.foldl (fun found x => if x.Index = choice then some x else found) found = some x →
        (x ∈ infos ∧ x.Index = choice) ∨ found = some x) ∧
      (infos.foldl (fun found x => if x.Index = choice then some x else found) found = none ↔
        found = none ∧ ∀ x ∈ infos, x.Index ≠ choice) by
    obtain ⟨h1, h2⟩ := h none
    exact ⟨fun x hx => (h1 x hx).resolve_right (by simp), by simpa using h2⟩
  induction infos with
  | nil => intro found; simp
  | cons a rest ih =>
    intro found
    simp only [List.foldl_cons]
    obtain ⟨h1, h2⟩ := ih (if a.Index = choice then some a else found)
    constructor
    · intro x hx
      rcases h1 x hx with h | h
      · exact Or.inl ⟨List.mem_cons_of_mem _ h.1, h.2⟩
      · by_cases ha : a.Index = choice
        · simp only [ha, if_true, Option.some.injEq] at h
          subst h
          exact Or.inl ⟨List.mem_cons_self _ _, ha⟩
        · simp only [ha, if_false] at h
          exact Or.inr h
    · rw [h2]
      by_cases ha : a.Index = choice
      · simp [ha]
      · simp [ha]

/-- One round of the selection loop on a line that is not the quit signal:
the line, trimmed and read by `Atoi`, either names a candidate, which is
chosen, or the loop says so and prompts again. -/
theorem chooseLoop_round (infos : List Info) (fuel : Nat) (w : World)
    (hline : w.stdin.headD "" ≠ "q\n") :
    chooseLoop infos (fuel + 1) w =
      match pick (strconv.Atoi (strings.TrimSpace (w.stdin.headD ""))).1 infos with
      | some info =>
        ⟨.ret (.next info), { w with stdin := w.stdin.tail },
          [.say (.choosePrompt infos.length), .read .choose (w.stdin.headD "")]⟩
      | none =>
        ⟨(chooseLoop infos fuel { w with stdin := w.stdin.tail }).out,
          (chooseLoop infos fuel { w with stdin := w.stdin.tail }).world,
          [.say (.choosePrompt infos.length), .read .choose (w.stdin.headD ""), .say .notAChoice] ++
            (chooseLoop infos fuel { w with stdin := w.stdin.tail }).trace⟩ := by
  generalize hl : w.stdin.headD "" = line at hline
  cases hp : pick (strconv.Atoi (strings.TrimSpace line)).1 infos with
  | some info =>
    simp only [chooseLoop, M.bind_eq, M.bind, say, emit, readLine, hl, hline, if_false, hp,
      M.pure_eq, M.pure_run]
    rfl
  | none =>
    simp only [chooseLoop, M.bind_eq, M.bind, say, emit, readLine, hl, hline, if_false, hp]
    rfl

/-! ## What holds of the batch -/

/-- Every run of `DoOne` starts by recording the call. -/
theorem DoOne_called (lib : id3v2.Lib) (env : Env) (fuel : Nat) (filename : String) (opts : Opts)
    (w : World) : Event.doOne filename ∈ (DoOne lib env fuel filename opts w).trace := by
  simp only [DoOne, M.bind_eq]
  exact (M.mem_trace_bind _ _ _ _).2 (Or.inl (by simp [emit]))

/-- When the loop of `DoDirectory` comes to its end, `DoOne` was entered for
every `.mp3` file of the listing, whatever the earlier calls returned. -/
theorem dirLoop_enters_all (lib : id3v2.Lib) (env : Env) (fuel : Nat) (filename : String)
    (opts : Opts) (files : List FileInfo) (w : World)
    (h : (dirLoop lib env fuel filename opts files w).out = .ret ()) :
    ∀ file ∈ files, file.IsDir = false → strings.ToLower (filepath.Ext file.Name) = ".mp3" →
      Event.doOne (filepath.Join [filename, file.Name]) ∈
        (dirLoop lib env fuel filename opts files w).trace := by
  induction files generalizing w with
  | nil => simp
  | cons f rest ih =>
    intro file hfile hdir hext
    by_cases hfd : f.IsDir = true
    · simp only [dirLoop, hfd, if_true] at h ⊢
      rcases List.mem_cons.1 hfile with rfl | hfile
      · rw [hfd] at hdir
        cases hdir
      · exact ih w h file hfile hdir hext
    · by_cases hfe : strings.ToLower (filepath.Ext f.Name) = ".mp3"
      · simp only [dirLoop, hfd, hfe, ne_eq, not_true_eq_false, if_false, Bool.false_eq_true,
          M.bind_eq] at h ⊢
        cases hone : (DoOne lib env fuel (filepath.Join [filename, f.Name]) opts w).out with
        | panic msg => simp [M.bind, hone] at h
        | outOfFuel => simp [M.bind, hone] at h
        | ret res =>
          rcases List.mem_cons.1 hfile with rfl | hfile
          · exact (M.mem_trace_bind _ _ _ _).2 (Or.inl (DoOne_called lib env fuel _ opts w))
          · refine (M.mem_trace_bind _ _ _ _).2 (Or.inr ⟨res, hone, ?_⟩)
            cases res with
            | none =>
              simp only [M.bind, hone, say, emit] at h ⊢
              simp only [List.singleton_append, List.mem_cons]
              exact Or.inr (ih _ h file hfile hdir hext)
            | some err =>
              simp only [M.bind, hone, say, emit] at h ⊢
              simp only [List.singleton_append, List.mem_cons]
              exact Or.inr (ih _ h file hfile hdir hext)
      · simp only [dirLoop, hfd, hfe, ne_eq, not_false_eq_true, if_true, if_false,
          Bool.false_eq_true] at h ⊢
        rcases List.mem_cons.1 hfile with rfl | hfile
        · exact absurd hext hfe
        · exact ih w h file hfile hdir hext

/-- The loop of `DoDirectory` ends early only when a call of `DoOne` does not
return: an error that `DoOne` returns never stops it. -/
theorem dirLoop_stops_only_on_panic (lib : id3v2.Lib) (env : Env) (fuel : Nat)
    (filename : String) (opts : Opts) (files : List FileInfo) (w : World)
    (hret : ∀ name w2, ∃ res,
      (DoOne lib env fuel (filepath.Join [filename, name]) opts w2).out = .ret res) :
    (dirLoop lib env fuel filename opts files w).out = .ret () := by
  induction files generalizing w with
  | nil => rfl
  | cons f rest ih =>
    by_cases hfd : f.IsDir = true
    · simp only [dirLoop, hfd, if_true]
      exact ih w
    · by_cases hfe : strings.ToLower (filepath.Ext f.Name) = ".mp3"
      · obtain ⟨res, hone⟩ := hret f.Name w
        simp only [dirLoop, hfd, hfe, ne_eq, not_true_eq_false, if_false, Bool.false_eq_true,
          M.bind_eq]
        cases res with
        | none =>
          simp only [M.bind, hone, say, emit]
          exact ih _
        | some err =>
          simp only [M.bind, hone, say, emit]
          exact ih _
      · simp only [dirLoop, hfd, hfe, ne_eq, not_false_eq_true, if_true, if_false,
          Bool.false_eq_true]
        exact ih w

end MetaFix
